import Mathlib

/-!
Shallow embedding of the massive-csv core engine
(src/massive-csv-core: parser.rs, reader.rs, searcher.rs, editor.rs).

Bytes are modelled as `Nat`; Rust `&[u8]`, `&str` and `String` all become
`List Nat` (a `&str` value is a byte list that is valid UTF-8).  Fallible
operations return `Except MassiveCsvError`.  Filesystem effects in
`CsvEditor::save` are modelled with an explicit oracle of step outcomes
(`SaveIo`) and the file contents are threaded as an explicit `List Nat`.
-/

/-- Error taxonomy (src/massive-csv-core/src/error.rs, `MassiveCsvError`). -/
inductive MassiveCsvError
  | ioError
  | csvError
  | parseError
  | rowOutOfRange (row count : Nat)
  | columnNotFound (key : List Nat)
  | emptyFile
  | invalidUtf8 (pos : Nat)
deriving DecidableEq

/-- Supported CSV delimiters (parser.rs, `Delimiter`). -/
inductive Delimiter
  | comma
  | tab
  | semicolon
  | pipe
deriving DecidableEq

/-- `Delimiter::as_byte` (parser.rs). -/
def Delimiter.asByte : Delimiter → Nat
  | .comma => 44
  | .tab => 9
  | .semicolon => 59
  | .pipe => 124

/-- `Delimiter::all` (parser.rs). -/
def allDelims : List Delimiter := [.comma, .tab, .semicolon, .pipe]

/-- ASCII bytes of a string literal; helper for concrete inputs. -/
def bytes (s : String) : List Nat := s.toList.map Char.toNat

/-- Loop body of `count_fields` (parser.rs): count unquoted delimiters + 1,
a `"` byte toggles the in-quotes flag. -/
def countFieldsGo (delim : Nat) : List Nat → Nat → Bool → Nat
  | [], c, _ => c
  | b :: r, c, inq =>
    if b = 34 then countFieldsGo delim r c (!inq)
    else if b = delim ∧ inq = false then countFieldsGo delim r (c + 1) inq
    else countFieldsGo delim r c inq

/-- `count_fields` (parser.rs): unquoted field count of a line. -/
def countFields (line : List Nat) (delim : Nat) : Nat :=
  countFieldsGo delim line 1 false

/-- Strip one trailing `\r` byte (the `line.last() == Some(&b'\r')` pattern used
by `first_line` / `first_n_lines` in parser.rs). -/
def stripCr (l : List Nat) : List Nat :=
  if l.getLast? = some 13 then l.dropLast else l

/-- `first_line` (parser.rs): bytes before the first `\n` (or the whole buffer),
with one trailing `\r` stripped; `none` on empty input. -/
def firstLine (data : List Nat) : Option (List Nat) :=
  if data = [] then none
  else some (stripCr (data.takeWhile (fun b => ¬ b = 10)))

/-- `first_n_lines` (parser.rs): up to `n` logical lines, each split at `\n`
and stripped of one trailing `\r`.  The loop breaks once the cursor passes the
end of the buffer; `data.drop (…length + 1)` is the `start += end + 1` step. -/
def firstNLines : Nat → List Nat → List (List Nat)
  | 0, _ => []
  | _ + 1, [] => []
  | n + 1, data =>
    stripCr (data.takeWhile (fun b => ¬ b = 10)) ::
      firstNLines n (data.drop ((data.takeWhile (fun b => ¬ b = 10)).length + 1))

/-- Logical lines of a byte buffer: split at every `\n`; a trailing `\n` does
not produce a final empty line.  Matches the line decomposition used by
`first_n_lines`, without the 20-line cap or the `\r` stripping. -/
def splitNl : List Nat → List (List Nat)
  | [] => []
  | b :: rest =>
    if b = 10 then [] :: splitNl rest
    else
      match splitNl rest with
      | [] => [[b]]
      | l :: ls => (b :: l) :: ls

/-- `detect_delimiter` (parser.rs): sample the first 20 lines, skip a candidate
whose first-line field count is ≤ 1, score the rest by `consistency * mode`,
keep the strictly best score; start from `(Comma, 0)`. -/
def detectDelimiter (data : List Nat) : Delimiter :=
  let sample := firstNLines 20 data
  if sample = [] then .comma
  else
    (allDelims.foldl (fun best delim =>
      let counts := sample.map (fun line => countFields line delim.asByte)
      if counts.headD 0 ≤ 1 then best
      else
        let mode := counts.headD 0
        let consistent := counts.countP (fun c => decide (c = mode))
        if consistent * mode > best.2 then (delim, consistent * mode) else best)
      (Delimiter.comma, 0)).1

/-- Score of one candidate delimiter, as the spec words it: 0 when the first
sampled line yields ≤ 1 fields, otherwise `consistency * mode` where `mode` is
the first line's count and `consistency` the number of sampled lines sharing
it.  Spec-side companion of the loop body of `detect_delimiter`. -/
def candScore (sample : List (List Nat)) (d : Nat) : Nat :=
  let counts := sample.map (fun line => countFields line d)
  if counts.headD 0 ≤ 1 then 0
  else (counts.countP (fun c => decide (c = counts.headD 0))) * counts.headD 0

/-- Pick the candidate with the highest of four scores (comma, tab, semicolon,
pipe in that order); ties resolve to the earliest, and a zero maximum falls
back to comma. -/
def chooseDelim (s1 s2 s3 s4 : Nat) : Delimiter :=
  let m := max (max (max s1 s2) s3) s4
  if m = 0 then .comma
  else if s1 = m then .comma
  else if s2 = m then .tab
  else if s3 = m then .semicolon
  else .pipe

/-- Delimiter choice as C6 words it: score every candidate, take the highest
score with ties resolved to the earliest of `, \t ; |`, and fall back to comma
on empty input or when no candidate scores above zero. -/
def detectSpec (data : List Nat) : Delimiter :=
  let sample := firstNLines 20 data
  if sample = [] then .comma
  else chooseDelim (candScore sample 44) (candScore sample 9)
    (candScore sample 59) (candScore sample 124)

/-- UTF-8 continuation byte. -/
def isCont (b : Nat) : Bool := decide (128 ≤ b ∧ b ≤ 191)

/-- `std::str::from_utf8` validity: rejects overlong encodings, surrogates and
code points above U+10FFFF, exactly as Rust does. -/
def validUtf8 : List Nat → Bool
  | [] => true
  | b :: r =>
    if b ≤ 127 then validUtf8 r
    else if 194 ≤ b ∧ b ≤ 223 then
      match r with
      | c1 :: r1 => isCont c1 && validUtf8 r1
      | [] => false
    else if 224 ≤ b ∧ b ≤ 239 then
      match r with
      | c1 :: c2 :: r2 =>
        (if b = 224 then decide (160 ≤ c1 ∧ c1 ≤ 191)
         else if b = 237 then decide (128 ≤ c1 ∧ c1 ≤ 159)
         else isCont c1) && isCont c2 && validUtf8 r2
      | _ => false
    else if 240 ≤ b ∧ b ≤ 244 then
      match r with
      | c1 :: c2 :: c3 :: r3 =>
        (if b = 240 then decide (144 ≤ c1 ∧ c1 ≤ 191)
         else if b = 244 then decide (128 ≤ c1 ∧ c1 ≤ 143)
         else isCont c1) && isCont c2 && isCont c3 && validUtf8 r3
      | _ => false
    else false

/-- States of the csv-crate record reader used by `parse_row`. -/
inductive ParseSt
  | startF
  | inF
  | inQ
  | afterQ
deriving DecidableEq

/-- Field-splitting state machine of the csv crate (default configuration:
quote `"`, doubled quotes, `\r`/`\n` terminate the record), reading one record.
`cur` is the field being built, `acc` the fields already finished. -/
def consume (d : Nat) : ParseSt → List Nat → List Nat → List (List Nat) → List (List Nat)
  | _, [], cur, acc => acc ++ [cur]
  | .startF, b :: rest, cur, acc =>
    if b = 34 then consume d .inQ rest cur acc
    else if b = d then consume d .startF rest [] (acc ++ [cur])
    else if b = 13 ∨ b = 10 then acc ++ [cur]
    else consume d .inF rest (cur ++ [b]) acc
  | .inF, b :: rest, cur, acc =>
    if b = d then consume d .startF rest [] (acc ++ [cur])
    else if b = 13 ∨ b = 10 then acc ++ [cur]
    else consume d .inF rest (cur ++ [b]) acc
  | .inQ, b :: rest, cur, acc =>
    if b = 34 then consume d .afterQ rest cur acc
    else consume d .inQ rest (cur ++ [b]) acc
  | .afterQ, b :: rest, cur, acc =>
    if b = 34 then consume d .inQ rest (cur ++ [34]) acc
    else if b = d then consume d .startF rest [] (acc ++ [cur])
    else if b = 13 ∨ b = 10 then acc ++ [cur]
    else consume d .inQ rest (cur ++ [b]) acc

/-- `parse_row` (parser.rs): parse one logical line into fields with the csv
crate.  The reader skips leading terminator bytes and returns `vec![]` when no
record remains.  The input models a `&str`, so the `StringRecord` UTF-8
validation cannot fire and the operation is total. -/
def parseRow (line : List Nat) (delim : Nat) : List (List Nat) :=
  let body := line.dropWhile (fun b => b = 13 ∨ b = 10)
  if body = [] then [] else consume delim .startF body [] []

/-- Does a field need quoting when serialized (csv crate `QuoteStyle::Necessary`):
it contains the delimiter, a quote, or a line terminator byte. -/
def needsQuote (f : List Nat) (d : Nat) : Bool :=
  f.any (fun b => decide (b = d ∨ b = 34 ∨ b = 13 ∨ b = 10))

/-- Double every `"` inside a quoted field. -/
def escQ : List Nat → List Nat
  | [] => []
  | b :: r => (if b = 34 then [34, 34] else [b]) ++ escQ r

/-- One serialized field: quoted (with doubled quotes) when necessary. -/
def encodeField (d : Nat) (f : List Nat) : List Nat :=
  if needsQuote f d then 34 :: (escQ f ++ [34]) else f

/-- Join serialized fields with the delimiter byte. -/
def joinFields (d : Nat) : List (List Nat) → List Nat
  | [] => []
  | [f] => f
  | f :: fs => f ++ d :: joinFields d fs

/-- `serialize_row` (parser.rs): one line of text, no trailing newline.  The
csv writer quotes a field containing the delimiter, a quote or a terminator,
and writes a record consisting of exactly one empty field as `""` (so that it
round-trips; an empty line reads back as no record).  The terminating newline
the writer emits is popped by `serialize_row` itself. -/
def serializeRow (fields : List (List Nat)) (d : Nat) : List Nat :=
  if fields = [[]] then [34, 34]
  else joinFields d (fields.map (encodeField d))

/-- `parse_headers` (parser.rs). -/
def parseHeaders (data : List Nat) (delim : Nat) : Except MassiveCsvError (List (List Nat)) :=
  match firstLine data with
  | none => .error .emptyFile
  | some l => if validUtf8 l then .ok (parseRow l delim) else .error (.invalidUtf8 0)

/-- `u8::is_ascii_whitespace`: space, `\t`, `\n`, `\x0C`, `\r`. -/
def asciiWhitespace (b : Nat) : Bool :=
  decide (b = 32 ∨ b = 9 ∨ b = 10 ∨ b = 12 ∨ b = 13)

/-- `strip_line_ending` (reader.rs): drop one trailing `\n`, then one
trailing `\r`. -/
def stripLineEnding (data : List Nat) : List Nat :=
  let e1 := if data.getLast? = some 10 then data.dropLast else data
  if e1.getLast? = some 13 then e1.dropLast else e1

/-- The newline scan of `build_index` (reader.rs): walking the buffer suffix
that starts at absolute position `p`, emit `pos + 1` for every `\n` whose
successor is still in bounds (`rest ≠ []`). -/
def nlScan : List Nat → Nat → List Nat
  | [], _ => []
  | b :: rest, p =>
    if b = 10 ∧ rest ≠ [] then (p + 1) :: nlScan rest (p + 1)
    else nlScan rest (p + 1)

/-- `&data[start..end]` on a byte slice. -/
def sliceBytes (data : List Nat) (s e : Nat) : List Nat :=
  (data.take e).drop s

/-- `build_index` (reader.rs): offsets of data rows, then drop the last offset
when it is out of bounds or points at a whitespace-only tail. -/
def buildIndex (data : List Nat) (dataStart : Nat) : List Nat :=
  if dataStart ≥ data.length then []
  else
    let index := dataStart :: nlScan (data.drop dataStart) dataStart
    match index.getLast? with
    | some last =>
      if last ≥ data.length ∨
          (stripLineEnding (data.drop last)).all (fun b => asciiWhitespace b)
      then index.dropLast else index
    | none => index

/-- `CsvReader` (reader.rs): the memory map, the row offset index, the parsed
headers and the delimiter byte.  The path is not modelled; the editor threads
the file contents explicitly instead. -/
structure CsvReader where
  mmap : List Nat
  lineIndex : List Nat
  headers : List (List Nat)
  delimiter : Nat
deriving DecidableEq

/-- Where the data rows start: one past the first `\n` (the
`mmap.iter().position(|&b| b == b'\n').map(|pos| pos + 1).unwrap_or(len)`
computation in `CsvReader::open`; the position of the first `\n`, when there
is one, is the length of the longest `\n`-free prefix). -/
def headerEndOf (data : List Nat) : Nat :=
  if (data.takeWhile (fun b => ¬ b = 10)).length < data.length
  then (data.takeWhile (fun b => ¬ b = 10)).length + 1
  else data.length

/-- `CsvReader::open` (reader.rs) on the file's bytes: reject the empty file,
detect the delimiter, parse the headers, find the end of the header line,
and build the index. -/
def CsvReader.open (data : List Nat) : Except MassiveCsvError CsvReader :=
  if data = [] then .error .emptyFile
  else
    let delim := (detectDelimiter data).asByte
    match parseHeaders data delim with
    | .error e => .error e
    | .ok hs => .ok ⟨data, buildIndex data (headerEndOf data), hs, delim⟩

/-- `CsvReader::row_count`. -/
def CsvReader.rowCount (r : CsvReader) : Nat := r.lineIndex.length

/-- `CsvReader::get_row_raw` (reader.rs): bounds check, slice
`[index[row], index[row+1])` (or to the end of the map for the last row),
strip one line ending, decode as UTF-8. -/
def CsvReader.getRowRaw (r : CsvReader) (row : Nat) : Except MassiveCsvError (List Nat) :=
  if row ≥ r.rowCount then .error (.rowOutOfRange row r.rowCount)
  else
    let s := r.lineIndex.getD row 0
    let e := if row + 1 < r.rowCount then r.lineIndex.getD (row + 1) 0 else r.mmap.length
    let slice := stripLineEnding (sliceBytes r.mmap s e)
    if validUtf8 slice then .ok slice else .error (.invalidUtf8 s)

/-- `CsvReader::get_row`. -/
def CsvReader.getRow (r : CsvReader) (row : Nat) : Except MassiveCsvError (List (List Nat)) :=
  (r.getRowRaw row).map (fun raw => parseRow raw r.delimiter)

/-- One search result (searcher.rs, `SearchResult`). -/
structure SearchResult where
  rowNum : Nat
  fields : List (List Nat)
deriving DecidableEq

/-- Search options (searcher.rs, `SearchOptions`). -/
structure SearchOptions where
  column : Option (List Nat)
  caseInsensitive : Bool
  maxResults : Nat
deriving DecidableEq

/-- ASCII model of `str::to_lowercase`.  Every concrete input in this
development is ASCII, and every claim about search compares the code's own
lowercasing of two texts, so the restriction to the ASCII subset does not
change any stated relationship. -/
def toLowerBytes (l : List Nat) : List Nat :=
  l.map (fun b => if 65 ≤ b ∧ b ≤ 90 then b + 32 else b)

/-- Is `needle` a prefix of `hay`. -/
def isPrefixB : List Nat → List Nat → Bool
  | [], _ => true
  | _ :: _, [] => false
  | a :: xs, b :: ys => a = b && isPrefixB xs ys

/-- `str::contains` with a string pattern: substring test. -/
def containsSub (hay needle : List Nat) : Bool :=
  isPrefixB needle hay ||
    match hay with
    | [] => false
    | _ :: t => containsSub t needle

/-- The substring test `search` performs, under the case policy: lowercase
both sides when `case_insensitive` is set. -/
def textMatch (ci : Bool) (s query : List Nat) : Bool :=
  if ci then containsSub (toLowerBytes s) (toLowerBytes query)
  else containsSub s query

/-- Column resolution in `search` (searcher.rs): exact header-name equality,
`ColumnNotFound` otherwise. -/
def resolveColumn (r : CsvReader) (opts : SearchOptions) :
    Except MassiveCsvError (Option Nat) :=
  match opts.column with
  | none => .ok none
  | some name =>
    match r.headers.findIdx? (fun h => decide (h = name)) with
    | some idx => .ok (some idx)
    | none => .error (.columnNotFound name)

/-- The per-row closure of the parallel scan in `search` (searcher.rs):
fetch the raw slice (errors skip the row), pre-filter on the raw text, parse,
and re-check the resolved column when one is given. -/
def rowPred (r : CsvReader) (query : List Nat) (ci : Bool) (colIdx : Option Nat)
    (rowNum : Nat) : Option SearchResult :=
  match r.getRowRaw rowNum with
  | .error _ => none
  | .ok raw =>
    if ¬ textMatch ci raw query then none
    else
      let fields := parseRow raw r.delimiter
      match colIdx with
      | none => some ⟨rowNum, fields⟩
      | some idx =>
        match fields.get? idx with
        | none => none
        | some f => if textMatch ci f query then some ⟨rowNum, fields⟩ else none

/-- `search` (searcher.rs): resolve the column, scan rows `0..row_count` in
index order (rayon's indexed `filter_map`/`collect` preserves that order),
then truncate to `max_results` when it is positive and exceeded. -/
def search (r : CsvReader) (query : List Nat) (opts : SearchOptions) :
    Except MassiveCsvError (List SearchResult) :=
  match resolveColumn r opts with
  | .error e => .error e
  | .ok colIdx =>
    let results := (List.range r.rowCount).filterMap
      (rowPred r query opts.caseInsensitive colIdx)
    if opts.maxResults > 0 ∧ results.length > opts.maxResults
    then .ok (results.take opts.maxResults)
    else .ok results

/-- Pending edit map, modelled as an association list with unique keys
(`HashMap<usize, Vec<String>>` in editor.rs). -/
def lookupEdit : List (Nat × List (List Nat)) → Nat → Option (List (List Nat))
  | [], _ => none
  | (k, v) :: t, i => if k = i then some v else lookupEdit t i

/-- `HashMap::insert`: replace the entry when the key is present, append
otherwise. -/
def insertEdit (l : List (Nat × List (List Nat))) (i : Nat)
    (v : List (List Nat)) : List (Nat × List (List Nat)) :=
  if (lookupEdit l i).isSome then
    l.map (fun p => if p.1 = i then (i, v) else p)
  else l ++ [(i, v)]

/-- `CsvEditor` (editor.rs): a reader plus the pending edit map. -/
structure CsvEditor where
  reader : CsvReader
  edits : List (Nat × List (List Nat))
deriving DecidableEq

/-- `CsvEditor::edit_count`. -/
def CsvEditor.editCount (e : CsvEditor) : Nat := e.edits.length

/-- `CsvEditor::has_changes`. -/
def CsvEditor.hasChanges (e : CsvEditor) : Bool := !e.edits.isEmpty

/-- `CsvEditor::get_row`: the edited fields when present, else the reader's
parsed row. -/
def CsvEditor.getRow (e : CsvEditor) (row : Nat) :
    Except MassiveCsvError (List (List Nat)) :=
  match lookupEdit e.edits row with
  | some f => .ok f
  | none => e.reader.getRow row

/-- `CsvEditor::set_row`: bounds check against the reader, then insert. -/
def CsvEditor.setRow (e : CsvEditor) (row : Nat) (fields : List (List Nat)) :
    Except MassiveCsvError CsvEditor :=
  if row ≥ e.reader.rowCount then .error (.rowOutOfRange row e.reader.rowCount)
  else .ok { e with edits := insertEdit e.edits row fields }

/-- Decimal digits of a number, as bytes. -/
def natDigits (n : Nat) : List Nat := (Nat.toDigits 10 n).map Char.toNat

/-- The `format!("index {col}")` payload of `set_cell`'s ColumnNotFound. -/
def indexMsg (col : Nat) : List Nat := bytes ("index ") ++ natDigits col

/-- `CsvEditor::set_cell`: read the current row (edited or original), bounds
check the column, replace the cell, write the row back into the edit map. -/
def CsvEditor.setCell (e : CsvEditor) (row col : Nat) (value : List Nat) :
    Except MassiveCsvError CsvEditor :=
  match e.getRow row with
  | .error er => .error er
  | .ok fields =>
    if col ≥ fields.length then .error (.columnNotFound (indexMsg col))
    else .ok { e with edits := insertEdit e.edits row (fields.set col value) }

/-- `CsvEditor::revert_row`: remove the entry, silent if absent. -/
def CsvEditor.revertRow (e : CsvEditor) (row : Nat) : CsvEditor :=
  { e with edits := e.edits.filter (fun p => decide (¬ p.1 = row)) }

/-- `CsvEditor::revert_all`. -/
def CsvEditor.revertAll (e : CsvEditor) : CsvEditor :=
  { e with edits := [] }

/-- Outcome oracle for the filesystem steps of `save`: temp-file creation,
buffered writes, flush, the atomic rename, and the post-rename re-open. -/
structure SaveIo where
  tempOk : Bool
  writeOk : Bool
  flushOk : Bool
  renameOk : Bool
  reopenOk : Bool
deriving DecidableEq

/-- The lines `save` writes after the header, in row order: an edited row is
re-serialized, an untouched row is copied from `get_row_raw` (whose failure
aborts the save). -/
def computeLines (e : CsvEditor) : Except MassiveCsvError (List (List Nat)) :=
  (List.range e.reader.rowCount).mapM (fun i =>
    match lookupEdit e.edits i with
    | some fs => .ok (serializeRow fs e.reader.delimiter)
    | none => e.reader.getRowRaw i)

/-- Concatenate lines, each followed by `\n`. -/
def linesBytes : List (List Nat) → List Nat
  | [] => []
  | l :: ls => l ++ 10 :: linesBytes ls

/-- The bytes `save` writes to the temp file: header line + `\n`, then every
row line + `\n`. -/
def newFileBytes (e : CsvEditor) (lines : List (List Nat)) : List Nat :=
  serializeRow e.reader.headers e.reader.delimiter ++ 10 :: linesBytes lines

/-- Final step of `save`: the rename already replaced the file with `nb`, and
`self.reader = CsvReader::open(&path)?` either installs the fresh reader and
clears the edit map, or propagates the error before `self.edits.clear()` runs,
leaving the old reader and the old edit map in place. -/
def saveReopen (e : CsvEditor) (nb : List Nat)
    (oo : Except MassiveCsvError CsvReader) :
    Except MassiveCsvError Unit × CsvEditor × List Nat :=
  match oo with
  | .error er => (.error er, e, nb)
  | .ok r' => (.ok (), ⟨r', []⟩, nb)

/-- The write/flush/rename/re-open tail of `save`, given the outcome `cl` of
assembling the row lines.  Failures before the rename leave editor and file
untouched. -/
def saveCore (e : CsvEditor) (file : List Nat) (fio : SaveIo)
    (cl : Except MassiveCsvError (List (List Nat))) :
    Except MassiveCsvError Unit × CsvEditor × List Nat :=
  match cl with
  | .error er => (.error er, e, file)
  | .ok lines =>
    if fio.writeOk = false then (.error .ioError, e, file)
    else if fio.flushOk = false then (.error .ioError, e, file)
    else if fio.renameOk = false then (.error .ioError, e, file)
    else if fio.reopenOk = false then (.error .ioError, e, newFileBytes e lines)
    else saveReopen e (newFileBytes e lines)
      (CsvReader.open (newFileBytes e lines))

/-- `CsvEditor::save` (editor.rs).  Returns (result, editor after the call,
file contents after the call).  No-op when the edit map is empty. -/
def CsvEditor.save (e : CsvEditor) (file : List Nat) (fio : SaveIo) :
    Except MassiveCsvError Unit × CsvEditor × List Nat :=
  if e.edits.isEmpty then (.ok (), e, file)
  else if fio.tempOk = false then (.error .ioError, e, file)
  else saveCore e file fio (computeLines e)

/-- Result of a fallible editor operation taken on a `&mut self`: the new
editor on success, the unchanged editor on error. -/
def applyE (e : CsvEditor) (r : Except MassiveCsvError CsvEditor) : CsvEditor :=
  match r with
  | .ok e' => e'
  | .error _ => e

/-- One editor operation on the pair (editor, file contents). -/
inductive EStep : CsvEditor × List Nat → CsvEditor × List Nat → Prop
  | set_row (e : CsvEditor) (f : List Nat) (i : Nat) (fields : List (List Nat)) :
      EStep (e, f) (applyE e (e.setRow i fields), f)
  | set_cell (e : CsvEditor) (f : List Nat) (i col : Nat) (v : List Nat) :
      EStep (e, f) (applyE e (e.setCell i col v), f)
  | revert_row (e : CsvEditor) (f : List Nat) (i : Nat) :
      EStep (e, f) (e.revertRow i, f)
  | revert_all (e : CsvEditor) (f : List Nat) :
      EStep (e, f) (e.revertAll, f)
  | save_step (e : CsvEditor) (f : List Nat) (fio : SaveIo) :
      EStep (e, f) ((e.save f fio).2.1, (e.save f fio).2.2)

/-- States reachable by any sequence of editor operations. -/
def EReachable : CsvEditor × List Nat → CsvEditor × List Nat → Prop :=
  Relation.ReflTransGen EStep

/-- Every pending-edit key is strictly below the current reader's row count. -/
def keysBound (e : CsvEditor) : Prop :=
  ∀ p ∈ e.edits, p.1 < e.reader.rowCount

/-- One comparison step of the `detect_delimiter` best-score fold: keep the
candidate on a strict improvement. -/
def pickStep (best : Delimiter × Nat) (c : Delimiter) (s : Nat) : Delimiter × Nat :=
  if s > best.2 then (c, s) else best

/-- Input of the C9 counterexample: comma wins (score 6 against pipe's 3). -/
def c9data : List Nat := bytes ("a|b,c|d\nx,y\nx,y\n")

/-- Rows appended in the C9 counterexample: each has two unquoted fields under
comma, the same shape as every existing row, yet each also matches pipe's
first-line count of 3, lifting pipe's score past comma's. -/
def c9extra : List Nat := bytes ("e|f,g|h\ne|f,g|h\ne|f,g|h\ne|f,g|h\n")

/-- The reader the C7 witness opens on `"h\na\nb\n"`. -/
def c7reader : CsvReader := ⟨bytes ("h\na\nb\n"), [2, 4], [[104]], 44⟩

/-- Input of the C7 counterexample: the trailing whitespace-only line is
dropped from the index, so the last surviving row's slice runs to the end of
the file. -/
def c7data : List Nat := bytes ("h\na\n \n")

/-- The reader `CsvReader::open` produces on `c7data`: a single indexed row. -/
def c7readerPop : CsvReader := ⟨c7data, [2], [[104]], 44⟩

/-- The reader opened on `"h\na\n"`, used by the C1 scenarios. -/
def c1reader : CsvReader := ⟨bytes ("h\na\n"), [2], [[104]], 44⟩

/-- An editor with one pending edit (row 0 becomes `["b"]`). -/
def c1editor : CsvEditor := ⟨c1reader, [(0, [[98]])]⟩

/-- Oracle under which every filesystem step succeeds except the post-rename
re-open of the reader. -/
def c1fio : SaveIo := ⟨true, true, true, true, false⟩

/-- Oracle under which every filesystem step succeeds. -/
def allIoOk : SaveIo := ⟨true, true, true, true, true⟩

/-- The reader opened on `"h\na\nb\n"`, used by the C2 witness. -/
def c2reader : CsvReader := ⟨bytes ("h\na\nb\n"), [2, 4], [[104]], 44⟩

/-- An editor with row 0 pending as `["c"]`. -/
def c2editor : CsvEditor := ⟨c2reader, [(0, [[99]])]⟩

/-- The reader opened on `"h\n1\n"`, used by the C2 counterexample. -/
def c2ceReader : CsvReader := ⟨bytes ("h\n1\n"), [2], [[104]], 44⟩

/-- An editor whose pending edit holds a field containing a newline; `save`
serializes it quoted, but the quoted newline still splits the row index on
re-open. -/
def c2ceEditor : CsvEditor := ⟨c2ceReader, [(0, [bytes ("a\nb")])]⟩

/-! ## Parse/serialize round trip -/

theorem needsQuote_false_iff (f : List Nat) (d : Nat) :
    needsQuote f d = false ↔ ∀ b ∈ f, ¬ b = d ∧ ¬ b = 34 ∧ ¬ b = 13 ∧ ¬ b = 10 := by
  simp only [needsQuote, List.any_eq_false, decide_eq_true_eq]
  constructor
  · intro h b hb
    have := h b hb
    tauto
  · intro h b hb
    have := h b hb
    tauto

theorem consume_nil (d : Nat) (st : ParseSt) (cur : List Nat) (acc : List (List Nat)) :
    consume d st [] cur acc = acc ++ [cur] := by
  cases st <;> rfl

theorem consume_startF_cons (d b : Nat) (rest cur : List Nat) (acc : List (List Nat)) :
    consume d .startF (b :: rest) cur acc =
      if b = 34 then consume d .inQ rest cur acc
      else if b = d then consume d .startF rest [] (acc ++ [cur])
      else if b = 13 ∨ b = 10 then acc ++ [cur]
      else consume d .inF rest (cur ++ [b]) acc := rfl

theorem consume_inF_cons (d b : Nat) (rest cur : List Nat) (acc : List (List Nat)) :
    consume d .inF (b :: rest) cur acc =
      if b = d then consume d .startF rest [] (acc ++ [cur])
      else if b = 13 ∨ b = 10 then acc ++ [cur]
      else consume d .inF rest (cur ++ [b]) acc := rfl

theorem consume_inQ_cons (d b : Nat) (rest cur : List Nat) (acc : List (List Nat)) :
    consume d .inQ (b :: rest) cur acc =
      if b = 34 then consume d .afterQ rest cur acc
      else consume d .inQ rest (cur ++ [b]) acc := rfl

theorem consume_afterQ_cons (d b : Nat) (rest cur : List Nat) (acc : List (List Nat)) :
    consume d .afterQ (b :: rest) cur acc =
      if b = 34 then consume d .inQ rest (cur ++ [34]) acc
      else if b = d then consume d .startF rest [] (acc ++ [cur])
      else if b = 13 ∨ b = 10 then acc ++ [cur]
      else consume d .inQ rest (cur ++ [b]) acc := rfl

theorem consume_inF_plain (d : Nat) (f : List Nat)
    (hf : ∀ b ∈ f, ¬ b = d ∧ ¬ b = 34 ∧ ¬ b = 13 ∧ ¬ b = 10) :
    ∀ t cur acc, consume d .inF (f ++ t) cur acc = consume d .inF t (cur ++ f) acc := by
  induction f with
  | nil => intro t cur acc; simp
  | cons b r ih =>
    intro t cur acc
    have hb := hf b (by simp)
    have hr : ∀ x ∈ r, ¬ x = d ∧ ¬ x = 34 ∧ ¬ x = 13 ∧ ¬ x = 10 := by
      intro x hx; exact hf x (by simp [hx])
    rw [List.cons_append, consume_inF_cons, if_neg hb.1,
      if_neg (by tauto : ¬ (b = 13 ∨ b = 10)), ih hr t (cur ++ [b]) acc]
    simp

theorem consume_inQ_esc (d : Nat) (f : List Nat) :
    ∀ t cur acc, consume d .inQ (escQ f ++ t) cur acc = consume d .inQ t (cur ++ f) acc := by
  induction f with
  | nil => intro t cur acc; simp [escQ]
  | cons b r ih =>
    intro t cur acc
    by_cases hb : b = 34
    · subst hb
      show consume d .inQ (34 :: 34 :: (escQ r ++ t)) cur acc = _
      rw [consume_inQ_cons, if_pos rfl, consume_afterQ_cons, if_pos rfl,
        ih t (cur ++ [34]) acc]
      simp
    · have he : escQ (b :: r) ++ t = b :: (escQ r ++ t) := by
        simp [escQ, if_neg hb]
      rw [he, consume_inQ_cons, if_neg hb, ih t (cur ++ [b]) acc]
      simp

theorem consume_enc_nil (d : Nat) (hd34 : ¬ d = 34) (hd13 : ¬ d = 13) (hd10 : ¬ d = 10)
    (f : List Nat) (acc : List (List Nat)) :
    consume d .startF (encodeField d f) [] acc = acc ++ [f] := by
  by_cases hq : needsQuote f d
  · have he : encodeField d f = 34 :: (escQ f ++ [34]) := by simp [encodeField, hq]
    rw [he, consume_startF_cons, if_pos rfl, consume_inQ_esc d f [34] [] acc,
      List.nil_append, consume_inQ_cons, if_pos rfl, consume_nil]
  · have hf := (needsQuote_false_iff f d).mp (by simpa using hq)
    have he : encodeField d f = f := by simp [encodeField, hq]
    rw [he]
    cases f with
    | nil => rw [consume_nil]
    | cons x xs =>
      have hx := hf x (by simp)
      have hxs : ∀ b ∈ xs, ¬ b = d ∧ ¬ b = 34 ∧ ¬ b = 13 ∧ ¬ b = 10 := by
        intro b hb; exact hf b (by simp [hb])
      rw [consume_startF_cons, if_neg hx.2.1, if_neg hx.1,
        if_neg (by tauto : ¬ (x = 13 ∨ x = 10))]
      have := consume_inF_plain d xs hxs [] ([] ++ [x]) acc
      simp only [List.append_nil] at this
      rw [this, consume_nil]
      simp

theorem consume_enc_delim (d : Nat) (hd34 : ¬ d = 34) (hd13 : ¬ d = 13) (hd10 : ¬ d = 10)
    (f t : List Nat) (acc : List (List Nat)) :
    consume d .startF (encodeField d f ++ (d :: t)) [] acc =
      consume d .startF t [] (acc ++ [f]) := by
  by_cases hq : needsQuote f d
  · have he : encodeField d f ++ (d :: t) = 34 :: (escQ f ++ (34 :: d :: t)) := by
      simp [encodeField, hq]
    rw [he, consume_startF_cons, if_pos rfl, consume_inQ_esc d f (34 :: d :: t) [] acc,
      List.nil_append, consume_inQ_cons, if_pos rfl, consume_afterQ_cons,
      if_neg hd34, if_pos rfl]
  · have hf := (needsQuote_false_iff f d).mp (by simpa using hq)
    have he : encodeField d f ++ (d :: t) = f ++ (d :: t) := by simp [encodeField, hq]
    rw [he]
    cases f with
    | nil =>
      rw [List.nil_append, consume_startF_cons, if_neg hd34, if_pos rfl]
    | cons x xs =>
      have hx := hf x (by simp)
      have hxs : ∀ b ∈ xs, ¬ b = d ∧ ¬ b = 34 ∧ ¬ b = 13 ∧ ¬ b = 10 := by
        intro b hb; exact hf b (by simp [hb])
      rw [List.cons_append, consume_startF_cons, if_neg hx.2.1, if_neg hx.1,
        if_neg (by tauto : ¬ (x = 13 ∨ x = 10))]
      have := consume_inF_plain d xs hxs (d :: t) ([] ++ [x]) acc
      rw [this, consume_inF_cons, if_pos rfl]
      simp

theorem consume_join (d : Nat) (hd34 : ¬ d = 34) (hd13 : ¬ d = 13) (hd10 : ¬ d = 10)
    (F : List (List Nat)) (hF : F ≠ []) :
    ∀ acc, consume d .startF (joinFields d (F.map (encodeField d))) [] acc = acc ++ F := by
  induction F with
  | nil => exact absurd rfl hF
  | cons f fs ih =>
    intro acc
    cases fs with
    | nil =>
      show consume d .startF (joinFields d [encodeField d f]) [] acc = _
      rw [show joinFields d [encodeField d f] = encodeField d f from rfl,
        consume_enc_nil d hd34 hd13 hd10 f acc]
    | cons g gs =>
      show consume d .startF
        (joinFields d (encodeField d f :: encodeField d g :: gs.map (encodeField d))) [] acc = _
      rw [show joinFields d (encodeField d f :: encodeField d g :: gs.map (encodeField d))
            = encodeField d f ++ d :: joinFields d (encodeField d g :: gs.map (encodeField d))
          from rfl,
        consume_enc_delim d hd34 hd13 hd10 f _ acc,
        show (encodeField d g :: gs.map (encodeField d)) = (g :: gs).map (encodeField d)
          from rfl,
        ih (by simp) (acc ++ [f])]
      simp

theorem joinFields_head_not_term (d : Nat) (hd13 : ¬ d = 13) (hd10 : ¬ d = 10)
    (F : List (List Nat)) (hF : F ≠ []) (hF1 : ¬ F = [[]]) :
    ∃ b t, joinFields d (F.map (encodeField d)) = b :: t ∧ ¬ (b = 13 ∨ b = 10) := by
  cases F with
  | nil => exact absurd rfl hF
  | cons f fs =>
    have henc : ∀ (x : List Nat), x ≠ [] →
        ∃ b t, encodeField d x = b :: t ∧ ¬ (b = 13 ∨ b = 10) := by
      intro x hx
      by_cases hq : needsQuote x d
      · exact ⟨34, escQ x ++ [34], by simp [encodeField, hq], by omega⟩
      · have hfacts := (needsQuote_false_iff x d).mp (by simpa using hq)
        cases x with
        | nil => exact absurd rfl hx
        | cons y ys =>
          have hy := hfacts y (by simp)
          exact ⟨y, ys, by simp [encodeField, hq], by tauto⟩
    cases fs with
    | nil =>
      have hf : f ≠ [] := fun h => hF1 (by simp [h])
      obtain ⟨b, t, hbt, hb⟩ := henc f hf
      exact ⟨b, t, by simp [joinFields, hbt], hb⟩
    | cons g gs =>
      by_cases hf : f = []
      · refine ⟨d, joinFields d (encodeField d g :: gs.map (encodeField d)), ?_, by tauto⟩
        subst hf
        show encodeField d [] ++ d :: _ = _
        simp [encodeField, needsQuote]
      · obtain ⟨b, t, hbt, hb⟩ := henc f hf
        refine ⟨b, t ++ d :: joinFields d (encodeField d g :: gs.map (encodeField d)), ?_, hb⟩
        show encodeField d f ++ d :: _ = _
        rw [hbt]
        simp

theorem parse_serialize_round (F : List (List Nat)) (d : Nat)
    (hd34 : ¬ d = 34) (hd13 : ¬ d = 13) (hd10 : ¬ d = 10) :
    parseRow (serializeRow F d) d = F := by
  by_cases hnil : F = []
  · subst hnil
    simp [serializeRow, joinFields, parseRow]
  · by_cases h1 : F = [[]]
    · subst h1
      have hser : serializeRow [[]] d = [34, 34] := by simp [serializeRow]
      rw [hser]
      show parseRow [34, 34] d = [[]]
      simp only [parseRow]
      rw [List.dropWhile_cons, if_neg (by simp)]
      rw [if_neg (by simp), consume_startF_cons, if_pos rfl, consume_inQ_cons, if_pos rfl,
        consume_nil]
      simp
    · have hser : serializeRow F d = joinFields d (F.map (encodeField d)) := by
        simp [serializeRow, h1]
      obtain ⟨b, t, hbt, hb⟩ := joinFields_head_not_term d hd13 hd10 F hnil h1
      rw [hser]
      simp only [parseRow]
      have hdrop : List.dropWhile (fun x => decide (x = 13 ∨ x = 10))
          (joinFields d (F.map (encodeField d))) = joinFields d (F.map (encodeField d)) := by
        rw [hbt, List.dropWhile_cons, if_neg (by simpa using hb)]
      rw [hdrop, if_neg (by simp [hbt]), consume_join d hd34 hd13 hd10 F hnil]
      simp

/-- C3: for every sequence of field strings `F` and every supported delimiter
byte `d`, parsing the serialization is the identity:
`parse_row(serialize_row(F, d), d) = F`, including fields that contain the
delimiter, double quotes, or line terminators. -/
theorem c3_parse_serialize_round_trip (F : List (List Nat)) (dl : Delimiter) :
    parseRow (serializeRow F dl.asByte) dl.asByte = F := by
  cases dl <;>
    exact parse_serialize_round F _ (by decide) (by decide) (by decide)

/-! ## Delimiter detection -/

theorem pickStep_snd (b : Delimiter × Nat) (c : Delimiter) (s : Nat) :
    (pickStep b c s).2 = max b.2 s := by
  unfold pickStep
  split_ifs <;> omega

theorem pickStep_of_le (b : Delimiter × Nat) (c : Delimiter) (s : Nat)
    (h : s ≤ b.2) : pickStep b c s = b := by
  unfold pickStep
  rw [if_neg (by omega)]

theorem pickStep_fst_of_gt (b : Delimiter × Nat) (c : Delimiter) (s : Nat)
    (h : s > b.2) : (pickStep b c s).1 = c := by
  unfold pickStep
  rw [if_pos h]

theorem detect_foldl_spec (sample : List (List Nat)) :
    (allDelims.foldl (fun best delim =>
      let counts := sample.map (fun line => countFields line delim.asByte)
      if counts.headD 0 ≤ 1 then best
      else
        let mode := counts.headD 0
        let consistent := counts.countP (fun c => decide (c = mode))
        if consistent * mode > best.2 then (delim, consistent * mode) else best)
      (Delimiter.comma, 0)).1 =
    chooseDelim (candScore sample 44) (candScore sample 9)
      (candScore sample 59) (candScore sample 124) := by
  simp only [chooseDelim]
  have hfold : (allDelims.foldl (fun best delim =>
      let counts := sample.map (fun line => countFields line delim.asByte)
      if counts.headD 0 ≤ 1 then best
      else
        let mode := counts.headD 0
        let consistent := counts.countP (fun c => decide (c = mode))
        if consistent * mode > best.2 then (delim, consistent * mode) else best)
      (Delimiter.comma, 0)) =
      (allDelims.foldl (fun best delim =>
        pickStep best delim (candScore sample delim.asByte))
      (Delimiter.comma, 0)) := by
    apply List.foldl_ext
    intro acc x _
    simp only [candScore, pickStep]
    by_cases h1 : (sample.map (fun line => countFields line x.asByte)).headD 0 ≤ 1
    · rw [if_pos h1, if_pos h1, if_neg (show ¬ (0 : Nat) > acc.2 by omega)]
    · rw [if_neg h1, if_neg h1]
  rw [hfold]
  simp only [allDelims, List.foldl_cons, List.foldl_nil, Delimiter.asByte]
  generalize candScore sample 44 = s1
  generalize candScore sample 9 = s2
  generalize candScore sample 59 = s3
  generalize candScore sample 124 = s4
  have h1snd : (pickStep (Delimiter.comma, 0) Delimiter.comma s1).2 = s1 := by
    rw [pickStep_snd]; omega
  have h1fst : (pickStep (Delimiter.comma, 0) Delimiter.comma s1).1 = Delimiter.comma := by
    unfold pickStep; split_ifs <;> rfl
  have h2snd : (pickStep (pickStep (Delimiter.comma, 0) Delimiter.comma s1)
      Delimiter.tab s2).2 = max s1 s2 := by
    rw [pickStep_snd, h1snd]
  have h3snd : (pickStep (pickStep (pickStep (Delimiter.comma, 0) Delimiter.comma s1)
      Delimiter.tab s2) Delimiter.semicolon s3).2 = max (max s1 s2) s3 := by
    rw [pickStep_snd, h2snd]
  by_cases c4 : s4 > max (max s1 s2) s3
  · rw [pickStep_fst_of_gt _ _ _ (by rw [h3snd]; exact c4)]
    rw [if_neg (by omega), if_neg (by omega), if_neg (by omega), if_neg (by omega)]
  · rw [pickStep_of_le _ _ _ (by rw [h3snd]; omega)]
    by_cases c3 : s3 > max s1 s2
    · rw [pickStep_fst_of_gt _ _ _ (by rw [h2snd]; exact c3)]
      rw [if_neg (by omega), if_neg (by omega), if_neg (by omega), if_pos (by omega)]
    · rw [pickStep_of_le _ _ _ (by rw [h2snd]; omega)]
      by_cases c2 : s2 > s1
      · rw [pickStep_fst_of_gt _ _ _ (by rw [h1snd]; exact c2)]
        rw [if_neg (by omega), if_neg (by omega), if_pos (by omega)]
      · rw [pickStep_of_le _ _ _ (by rw [h1snd]; omega), h1fst]
        by_cases hz : max (max (max s1 s2) s3) s4 = 0
        · rw [if_pos hz]
        · rw [if_neg hz, if_pos (by omega)]

theorem detect_eq_choose (data : List Nat) :
    detectDelimiter data = detectSpec data := by
  simp only [detectDelimiter, detectSpec]
  by_cases hs : firstNLines 20 data = []
  · simp [hs]
  · simp only [hs, if_false]
    exact detect_foldl_spec (firstNLines 20 data)

/-- C6: delimiter inference follows the skip / score / earliest-tie-break rule
described by the claim, with comma as the fallback on empty input or when no
candidate scores above zero (`detectSpec` is that rule verbatim). -/
theorem c6_detect_delimiter_spec (data : List Nat) :
    detectDelimiter data = detectSpec data := detect_eq_choose data

/-! ## Line splitting -/

theorem takeWhile_no10 (l : List Nat) (hl : ∀ b ∈ l, ¬ b = 10) :
    l.takeWhile (fun b => ¬ b = 10) = l := by
  induction l with
  | nil => rfl
  | cons x t ih =>
    have hx := hl x (by simp)
    simp only [List.takeWhile_cons]
    rw [if_pos (by simpa using hx)]
    rw [ih (fun b hb => hl b (by simp [hb]))]

theorem takeWhile_app10 (l r : List Nat) (hl : ∀ b ∈ l, ¬ b = 10) :
    (l ++ 10 :: r).takeWhile (fun b => ¬ b = 10) = l := by
  induction l with
  | nil => simp [List.takeWhile_cons]
  | cons x t ih =>
    have hx := hl x (by simp)
    simp only [List.cons_append, List.takeWhile_cons]
    rw [if_pos (by simpa using hx)]
    rw [ih (fun b hb => hl b (by simp [hb]))]

theorem drop_app10 (l r : List Nat) : (l ++ 10 :: r).drop (l.length + 1) = r := by
  have h : l ++ 10 :: r = (l ++ [10]) ++ r := by simp
  rw [h]
  have h2 : (l ++ [10]).length = l.length + 1 := by simp
  rw [← h2, List.drop_left]

theorem splitNl_nil : splitNl [] = [] := rfl

theorem splitNl_cons (b : Nat) (rest : List Nat) :
    splitNl (b :: rest) =
      if b = 10 then [] :: splitNl rest
      else
        match splitNl rest with
        | [] => [[b]]
        | l :: ls => (b :: l) :: ls := rfl

theorem splitNl_cons_line (l rest : List Nat) (hl : ∀ b ∈ l, ¬ b = 10) :
    splitNl (l ++ 10 :: rest) = l :: splitNl rest := by
  induction l with
  | nil => simp [splitNl_cons]
  | cons x t ih =>
    have hx : ¬ x = 10 := hl x (by simp)
    have ht := ih (fun b hb => hl b (by simp [hb]))
    rw [List.cons_append, splitNl_cons, if_neg hx, ht]

theorem splitNl_single (l : List Nat) (hne : l ≠ []) (hl : ∀ b ∈ l, ¬ b = 10) :
    splitNl l = [l] := by
  induction l with
  | nil => exact absurd rfl hne
  | cons x t ih =>
    have hx : ¬ x = 10 := hl x (by simp)
    rw [splitNl_cons, if_neg hx]
    by_cases ht : t = []
    · subst ht
      rfl
    · rw [ih ht (fun b hb => hl b (by simp [hb]))]

theorem splitNl_ne_nil (data : List Nat) (h : data ≠ []) : splitNl data ≠ [] := by
  cases data with
  | nil => exact absurd rfl h
  | cons b rest =>
    rw [splitNl_cons]
    split_ifs
    · simp
    · cases splitNl rest <;> simp

theorem splitNl_eq_takeWhile (data : List Nat) (h : data ≠ []) :
    splitNl data = data.takeWhile (fun b => ¬ b = 10) ::
      splitNl (data.drop ((data.takeWhile (fun b => ¬ b = 10)).length + 1)) := by
  induction data with
  | nil => exact absurd rfl h
  | cons x t ih =>
    by_cases hx : x = 10
    · subst hx
      rw [splitNl_cons, if_pos rfl]
      simp [List.takeWhile_cons]
    · rw [splitNl_cons, if_neg hx]
      rw [List.takeWhile_cons, if_pos (by simpa using hx)]
      by_cases ht : t = []
      · subst ht
        rfl
      · rw [ih ht]
        simp only [List.length_cons, List.drop_succ_cons]

theorem split_at_10 (a : List Nat) (h10 : (10 : Nat) ∈ a) :
    ∃ l rest, a = l ++ 10 :: rest ∧ ∀ b ∈ l, ¬ b = 10 := by
  induction a with
  | nil => simp at h10
  | cons x t ih =>
    by_cases hx : x = 10
    · exact ⟨[], t, by simp [hx], by simp⟩
    · have hm : (10 : Nat) ∈ t := by
        rcases List.mem_cons.mp h10 with h | h
        · exact absurd h.symm hx
        · exact h
      obtain ⟨l, rest, hdec, hno⟩ := ih hm
      refine ⟨x :: l, rest, by simp [hdec], ?_⟩
      intro b hb
      rcases List.mem_cons.mp hb with h | h
      · simpa [h] using hx
      · exact hno b h

theorem splitNl_append (a : List Nat) (ha : a ≠ []) (hlast : a.getLast? = some 10)
    (b : List Nat) : splitNl (a ++ b) = splitNl a ++ splitNl b := by
  have H : ∀ n (a : List Nat), a.length ≤ n → a ≠ [] → a.getLast? = some 10 →
      ∀ b, splitNl (a ++ b) = splitNl a ++ splitNl b := by
    intro n
    induction n with
    | zero =>
      intro a hle ha
      exact absurd (List.length_eq_zero.mp (by omega)) ha
    | succ n ih =>
      intro a hle ha hlast b
      have hmem : (10 : Nat) ∈ a.getLast? := Option.mem_def.mpr hlast
      have h10 : (10 : Nat) ∈ a := by
        obtain ⟨hne, hx⟩ := List.mem_getLast?_eq_getLast hmem
        rw [hx]
        exact List.getLast_mem hne
      obtain ⟨l, rest, hdec, hno⟩ := split_at_10 a h10
      subst hdec
      by_cases hrest : rest = []
      · subst hrest
        rw [List.append_assoc, List.cons_append, List.nil_append,
          splitNl_cons_line l b hno, splitNl_cons_line l [] hno, splitNl_nil]
        simp
      · have hre : l ++ 10 :: rest = (l ++ [10]) ++ rest := by simp
        have hlast' : rest.getLast? = some 10 := by
          rwa [hre, List.getLast?_append_of_ne_nil (l ++ [10]) hrest] at hlast
        have hlen : rest.length ≤ n := by
          have := List.length_append l (10 :: rest)
          simp only [List.length_cons] at this
          omega
        rw [List.append_assoc, List.cons_append,
          splitNl_cons_line l (rest ++ b) hno, splitNl_cons_line l rest hno,
          ih rest hlen hrest hlast' b]
        simp
  exact H a.length a (Nat.le_refl _) ha hlast b

theorem firstNLines_eq (n : Nat) (data : List Nat) :
    firstNLines n data = ((splitNl data).take n).map stripCr := by
  induction n generalizing data with
  | zero => simp [firstNLines]
  | succ n ih =>
    cases data with
    | nil => simp [firstNLines, splitNl_nil]
    | cons x t =>
      rw [show firstNLines (n + 1) (x :: t) =
          stripCr ((x :: t).takeWhile (fun b => ¬ b = 10)) ::
            firstNLines n ((x :: t).drop
              (((x :: t).takeWhile (fun b => ¬ b = 10)).length + 1)) from rfl]
      rw [splitNl_eq_takeWhile (x :: t) (by simp)]
      simp only [List.take_succ_cons, List.map_cons]
      rw [ih]

/-! ## Delimiter inference stability -/

theorem headD_map_append (S E : List (List Nat)) (hS : S ≠ []) (f : List Nat → Nat) :
    (((S ++ E).map f).headD 0) = ((S.map f).headD 0) := by
  cases S with
  | nil => exact absurd rfl hS
  | cons x t => simp

theorem headD_of_ne_nil (S : List (List Nat)) (hS : S ≠ []) (f : List Nat → Nat) :
    ((S.map f).headD 0) = f (S.headD []) := by
  cases S with
  | nil => exact absurd rfl hS
  | cons x t => simp

theorem candScore_append_matching (S E : List (List Nat)) (hS : S ≠ []) (d : Nat)
    (hmatch : ∀ l ∈ E, countFields l d = countFields (S.headD []) d) :
    candScore S d ≤ candScore (S ++ E) d ∧
      (candScore S d = 0 → candScore (S ++ E) d = 0) := by
  simp only [candScore]
  rw [headD_map_append S E hS]
  by_cases h1 : ((S.map (fun line => countFields line d)).headD 0) ≤ 1
  · rw [if_pos h1, if_pos h1]
    exact ⟨Nat.le_refl _, fun _ => rfl⟩
  · rw [if_neg h1, if_neg h1]
    constructor
    · rw [List.map_append, List.countP_append]
      exact Nat.mul_le_mul_right _ (Nat.le_add_right _ _)
    · intro hz
      exfalso
      have hmode : 2 ≤ (S.map (fun line => countFields line d)).headD 0 := by omega
      have hcnt : 1 ≤ (S.map (fun line => countFields line d)).countP
          (fun c => decide (c = (S.map (fun line => countFields line d)).headD 0)) := by
        cases S with
        | nil => exact absurd rfl hS
        | cons x t =>
          simp only [List.map_cons, List.countP_cons, List.headD_cons]
          simp
      have := Nat.mul_le_mul hcnt hmode
      omega

theorem candScore_append_nonmatching (S E : List (List Nat)) (hS : S ≠ []) (d : Nat)
    (hno : 1 < countFields (S.headD []) d →
      ∀ l ∈ E, ¬ countFields l d = countFields (S.headD []) d) :
    candScore (S ++ E) d = candScore S d := by
  simp only [candScore]
  rw [headD_map_append S E hS]
  by_cases h1 : ((S.map (fun line => countFields line d)).headD 0) ≤ 1
  · rw [if_pos h1, if_pos h1]
  · rw [if_neg h1, if_neg h1]
    have hmode : 1 < countFields (S.headD []) d := by
      rw [headD_of_ne_nil S hS] at h1
      omega
    have hE : (E.map (fun line => countFields line d)).countP
        (fun c => decide (c = (S.map (fun line => countFields line d)).headD 0)) = 0 := by
      rw [List.countP_eq_zero]
      intro x hx
      obtain ⟨l, hl, hfl⟩ := List.mem_map.mp hx
      have := hno hmode l hl
      rw [headD_of_ne_nil S hS]
      simp only [decide_eq_true_eq]
      intro hc
      exact this (by rw [hfl]; exact hc)
    rw [List.map_append, List.countP_append, hE]
    simp

theorem chooseDelim_stable (s1 s2 s3 s4 t1 t2 t3 t4 : Nat)
    (h1 : s1 ≤ t1) (h1z : s1 = 0 → t1 = 0)
    (h1e : ¬ chooseDelim s1 s2 s3 s4 = .comma → t1 = s1)
    (h2 : s2 ≤ t2) (h2z : s2 = 0 → t2 = 0)
    (h2e : ¬ chooseDelim s1 s2 s3 s4 = .tab → t2 = s2)
    (h3 : s3 ≤ t3) (h3z : s3 = 0 → t3 = 0)
    (h3e : ¬ chooseDelim s1 s2 s3 s4 = .semicolon → t3 = s3)
    (h4 : s4 ≤ t4) (h4z : s4 = 0 → t4 = 0)
    (h4e : ¬ chooseDelim s1 s2 s3 s4 = .pipe → t4 = s4) :
    chooseDelim t1 t2 t3 t4 = chooseDelim s1 s2 s3 s4 := by
  by_cases hm : max (max (max s1 s2) s3) s4 = 0
  · have e1 := h1z (by omega)
    have e2 := h2z (by omega)
    have e3 := h3z (by omega)
    have e4 := h4z (by omega)
    unfold chooseDelim
    rw [if_pos (by omega), if_pos (by omega)]
  · by_cases hc1 : s1 = max (max (max s1 s2) s3) s4
    · have hds : chooseDelim s1 s2 s3 s4 = .comma := by
        unfold chooseDelim
        rw [if_neg hm, if_pos hc1]
      have e2 := h2e (by rw [hds]; simp)
      have e3 := h3e (by rw [hds]; simp)
      have e4 := h4e (by rw [hds]; simp)
      rw [hds]
      unfold chooseDelim
      rw [if_neg (by omega), if_pos (by omega)]
    · by_cases hc2 : s2 = max (max (max s1 s2) s3) s4
      · have hds : chooseDelim s1 s2 s3 s4 = .tab := by
          unfold chooseDelim
          rw [if_neg hm, if_neg hc1, if_pos hc2]
        have e1 := h1e (by rw [hds]; simp)
        have e3 := h3e (by rw [hds]; simp)
        have e4 := h4e (by rw [hds]; simp)
        rw [hds]
        unfold chooseDelim
        rw [if_neg (by omega), if_neg (by omega), if_pos (by omega)]
      · by_cases hc3 : s3 = max (max (max s1 s2) s3) s4
        · have hds : chooseDelim s1 s2 s3 s4 = .semicolon := by
            unfold chooseDelim
            rw [if_neg hm, if_neg hc1, if_neg hc2, if_pos hc3]
          have e1 := h1e (by rw [hds]; simp)
          have e2 := h2e (by rw [hds]; simp)
          have e4 := h4e (by rw [hds]; simp)
          rw [hds]
          unfold chooseDelim
          rw [if_neg (by omega), if_neg (by omega), if_neg (by omega), if_pos (by omega)]
        · have hc4 : s4 = max (max (max s1 s2) s3) s4 := by omega
          have hds : chooseDelim s1 s2 s3 s4 = .pipe := by
            unfold chooseDelim
            rw [if_neg hm, if_neg hc1, if_neg hc2, if_neg hc3]
          have e1 := h1e (by rw [hds]; simp)
          have e2 := h2e (by rw [hds]; simp)
          have e3 := h3e (by rw [hds]; simp)
          rw [hds]
          unfold chooseDelim
          rw [if_neg (by omega), if_neg (by omega), if_neg (by omega), if_neg (by omega)]

theorem take20_ne_nil (A : List (List Nat)) (hA : A ≠ []) : A.take 20 ≠ [] := by
  cases A with
  | nil => exact absurd rfl hA
  | cons x t => simp

/-- C9 amended: appending rows is guaranteed to preserve the inferred
delimiter `d` when the appended lines match the first sampled line's unquoted
field count under `d` and, for every other candidate that is not skipped,
avoid that candidate's first-line count.  (The claim's weaker premise — same
counts under `d` alone — is refuted by `c9_counterexample`.) -/
theorem c9_detect_stability_amended (data extra : List Nat)
    (hne : data ≠ [])
    (hnl : data.getLast? = some 10)
    (hmatch : ∀ l ∈ (splitNl extra).map stripCr,
      countFields l (detectDelimiter data).asByte =
        countFields ((firstNLines 20 data).headD []) (detectDelimiter data).asByte)
    (hother : ∀ c : Delimiter, ¬ c = detectDelimiter data →
      1 < countFields ((firstNLines 20 data).headD []) c.asByte →
      ∀ l ∈ (splitNl extra).map stripCr,
        ¬ countFields l c.asByte = countFields ((firstNLines 20 data).headD []) c.asByte) :
    detectDelimiter (data ++ extra) = detectDelimiter data := by
  have hA := splitNl_ne_nil data hne
  have hS : firstNLines 20 data ≠ [] := by
    rw [firstNLines_eq]
    simp only [ne_eq, List.map_eq_nil]
    exact take20_ne_nil _ hA
  have hsampleApp : firstNLines 20 (data ++ extra) =
      firstNLines 20 data ++
        ((splitNl extra).map stripCr).take (20 - (splitNl data).length) := by
    rw [firstNLines_eq, firstNLines_eq, splitNl_append data hne hnl extra,
      List.take_append_eq_append_take, List.map_append, List.map_take]
    simp [List.length_take]
  have hS' : firstNLines 20 (data ++ extra) ≠ [] := by
    rw [hsampleApp]
    simp only [ne_eq, List.append_eq_nil]
    intro ⟨h, _⟩
    exact hS h
  have hd : detectDelimiter data =
      chooseDelim (candScore (firstNLines 20 data) 44)
        (candScore (firstNLines 20 data) 9)
        (candScore (firstNLines 20 data) 59)
        (candScore (firstNLines 20 data) 124) := by
    rw [detect_eq_choose data]
    simp only [detectSpec]
    rw [if_neg hS]
  have hmatch' : ∀ l ∈ ((splitNl extra).map stripCr).take (20 - (splitNl data).length),
      countFields l (detectDelimiter data).asByte =
        countFields ((firstNLines 20 data).headD []) (detectDelimiter data).asByte :=
    fun l hl => hmatch l (List.take_subset _ _ hl)
  have key : ∀ c : Delimiter,
      candScore (firstNLines 20 data) c.asByte ≤
        candScore (firstNLines 20 data ++
          ((splitNl extra).map stripCr).take (20 - (splitNl data).length)) c.asByte ∧
      (candScore (firstNLines 20 data) c.asByte = 0 →
        candScore (firstNLines 20 data ++
          ((splitNl extra).map stripCr).take (20 - (splitNl data).length)) c.asByte = 0) := by
    intro c
    by_cases hc : c = detectDelimiter data
    · subst hc
      exact candScore_append_matching _ _ hS _ hmatch'
    · have heq := candScore_append_nonmatching _
        (((splitNl extra).map stripCr).take (20 - (splitNl data).length)) hS c.asByte
        (fun hmode l hl => hother c hc hmode l (List.take_subset _ _ hl))
      exact ⟨Nat.le_of_eq heq.symm, fun h => heq ▸ h⟩
  have keyE : ∀ c : Delimiter, ¬ c = detectDelimiter data →
      candScore (firstNLines 20 data ++
        ((splitNl extra).map stripCr).take (20 - (splitNl data).length)) c.asByte =
      candScore (firstNLines 20 data) c.asByte :=
    fun c hc => candScore_append_nonmatching _ _ hS c.asByte
      (fun hmode l hl => hother c hc hmode l (List.take_subset _ _ hl))
  rw [detect_eq_choose (data ++ extra)]
  simp only [detectSpec]
  rw [if_neg hS', hsampleApp, hd]
  have hcomma := key .comma
  have htab := key .tab
  have hsemi := key .semicolon
  have hpipe := key .pipe
  simp only [Delimiter.asByte] at hcomma htab hsemi hpipe keyE hd
  exact chooseDelim_stable _ _ _ _ _ _ _ _
    hcomma.1 hcomma.2
    (fun hnc => keyE .comma (fun h => hnc (by rw [← hd]; exact h.symm)))
    htab.1 htab.2
    (fun hnc => keyE .tab (fun h => hnc (by rw [← hd]; exact h.symm)))
    hsemi.1 hsemi.2
    (fun hnc => keyE .semicolon (fun h => hnc (by rw [← hd]; exact h.symm)))
    hpipe.1 hpipe.2
    (fun hnc => keyE .pipe (fun h => hnc (by rw [← hd]; exact h.symm)))

/-- C9 counterexample: `c9data` infers comma and every line of `c9data` and of
the appended `c9extra` has the same unquoted field count (2) under comma, yet
the combined input infers pipe — appending rows of identical shape under the
inferred delimiter can change the inference. -/
theorem c9_counterexample :
    detectDelimiter c9data = Delimiter.comma ∧
    ((splitNl c9data).map stripCr).all (fun l => countFields l 44 = 2) = true ∧
    ((splitNl c9extra).map stripCr).all (fun l => countFields l 44 = 2) = true ∧
    detectDelimiter (c9data ++ c9extra) = Delimiter.pipe :=
  ⟨by decide, by decide, by decide, by decide⟩

theorem c9_stability_witness :
    detectDelimiter (bytes ("a,b\nc,d\n") ++ bytes ("e,f\n")) =
      detectDelimiter (bytes ("a,b\nc,d\n")) :=
  c9_detect_stability_amended (bytes ("a,b\nc,d\n")) (bytes ("e,f\n"))
    (by decide) (by decide) (by decide)
    (by intro c; cases c <;> decide)

/-! ## Row index regions -/

theorem nlScan_cons (b : Nat) (rest : List Nat) (p : Nat) :
    nlScan (b :: rest) p =
      if b = 10 ∧ rest ≠ [] then (p + 1) :: nlScan rest (p + 1)
      else nlScan rest (p + 1) := rfl

theorem nlScan_no10 (l : List Nat) (hl : ∀ b ∈ l, ¬ b = 10) :
    ∀ p, nlScan l p = [] := by
  induction l with
  | nil => intro p; rfl
  | cons b t ih =>
    intro p
    have hb : ¬ b = 10 := hl b (by simp)
    rw [nlScan_cons, if_neg (by tauto)]
    exact ih (fun x hx => hl x (by simp [hx])) (p + 1)

theorem nlScan_line_nil (l : List Nat) (hl : ∀ b ∈ l, ¬ b = 10) :
    ∀ p, nlScan (l ++ [10]) p = [] := by
  induction l with
  | nil =>
    intro p
    rw [List.nil_append, nlScan_cons, if_neg (by simp)]
    rfl
  | cons b t ih =>
    intro p
    have hb : ¬ b = 10 := hl b (by simp)
    rw [List.cons_append, nlScan_cons, if_neg (by tauto)]
    exact ih (fun x hx => hl x (by simp [hx])) (p + 1)

theorem nlScan_line_cons (l rest : List Nat) (hl : ∀ b ∈ l, ¬ b = 10)
    (hrest : rest ≠ []) :
    ∀ p, nlScan (l ++ 10 :: rest) p =
      (p + l.length + 1) :: nlScan rest (p + l.length + 1) := by
  induction l with
  | nil =>
    intro p
    rw [List.nil_append, nlScan_cons, if_pos (by simp [hrest])]
    simp
  | cons b t ih =>
    intro p
    have hb : ¬ b = 10 := hl b (by simp)
    rw [List.cons_append, nlScan_cons, if_neg (by tauto)]
    rw [ih (fun x hx => hl x (by simp [hx])) (p + 1)]
    have harith : p + 1 + t.length + 1 = p + (b :: t).length + 1 := by simp; omega
    rw [harith]

theorem drop_pre (pre x : List Nat) : (pre ++ x).drop pre.length = x :=
  List.drop_left pre x

theorem slice_first (pre l rest : List Nat) :
    sliceBytes (pre ++ ((l ++ [10]) ++ rest)) pre.length (pre.length + l.length + 1) =
      l ++ [10] := by
  unfold sliceBytes
  have h1 : pre.length + l.length + 1 = pre.length + (l ++ [10]).length := by
    simp only [List.length_append, List.length_cons, List.length_nil]
    omega
  rw [h1, List.take_append_eq_append_take]
  have h2 : pre.length + (l ++ [10]).length - pre.length = (l ++ [10]).length := by omega
  rw [h2, List.take_of_length_le (by omega), List.take_left]
  exact drop_pre pre (l ++ [10])

theorem regionSpec (body : List Nat) (hne : body ≠ []) (pre : List Nat) :
    (pre.length :: nlScan body pre.length).length = (splitNl body).length ∧
    (∀ k, k + 1 < (pre.length :: nlScan body pre.length).length →
      sliceBytes (pre ++ body)
        ((pre.length :: nlScan body pre.length).getD k 0)
        ((pre.length :: nlScan body pre.length).getD (k + 1) 0) =
      (splitNl body).getD k [] ++ [10]) ∧
    ((pre ++ body).drop ((pre.length :: nlScan body pre.length).getD
        ((pre.length :: nlScan body pre.length).length - 1) 0) =
      (splitNl body).getD ((splitNl body).length - 1) [] ∨
     (pre ++ body).drop ((pre.length :: nlScan body pre.length).getD
        ((pre.length :: nlScan body pre.length).length - 1) 0) =
      (splitNl body).getD ((splitNl body).length - 1) [] ++ [10]) := by
  have H : ∀ n (body : List Nat), body.length ≤ n → body ≠ [] → ∀ pre : List Nat,
      (pre.length :: nlScan body pre.length).length = (splitNl body).length ∧
      (∀ k, k + 1 < (pre.length :: nlScan body pre.length).length →
        sliceBytes (pre ++ body)
          ((pre.length :: nlScan body pre.length).getD k 0)
          ((pre.length :: nlScan body pre.length).getD (k + 1) 0) =
        (splitNl body).getD k [] ++ [10]) ∧
      ((pre ++ body).drop ((pre.length :: nlScan body pre.length).getD
          ((pre.length :: nlScan body pre.length).length - 1) 0) =
        (splitNl body).getD ((splitNl body).length - 1) [] ∨
       (pre ++ body).drop ((pre.length :: nlScan body pre.length).getD
          ((pre.length :: nlScan body pre.length).length - 1) 0) =
        (splitNl body).getD ((splitNl body).length - 1) [] ++ [10]) := by
    intro n
    induction n with
    | zero =>
      intro body hle hne
      exact absurd (List.length_eq_zero.mp (by omega)) hne
    | succ n ih =>
      intro body hle hne pre
      by_cases h10 : (10 : Nat) ∈ body
      · obtain ⟨l, rest, hdec, hno⟩ := split_at_10 body h10
        subst hdec
        by_cases hrest : rest = []
        · subst hrest
          rw [show l ++ [10] = l ++ 10 :: [] from rfl] at *
          rw [nlScan_line_nil l hno, splitNl_cons_line l [] hno, splitNl_nil]
          refine ⟨rfl, by intro k hk; simp at hk, Or.inr ?_⟩
          simp only [List.length_singleton, Nat.sub_self, List.getD_cons_zero]
          rw [show pre ++ (l ++ 10 :: []) = pre ++ (l ++ [10]) from rfl,
            drop_pre pre (l ++ [10])]
        · rw [nlScan_line_cons l rest hno hrest, splitNl_cons_line l rest hno]
          have hlen : rest.length ≤ n := by
            have := List.length_append l (10 :: rest)
            simp only [List.length_cons] at this
            omega
          have hpre' : (pre ++ (l ++ [10])).length = pre.length + l.length + 1 := by
            simp only [List.length_append, List.length_cons, List.length_nil]
            omega
          have hIH := ih rest hlen hrest (pre ++ (l ++ [10]))
          rw [hpre'] at hIH
          have hdata : (pre ++ (l ++ [10])) ++ rest = pre ++ (l ++ 10 :: rest) := by
            simp
          rw [hdata] at hIH
          obtain ⟨ih1, ih2, ih3⟩ := hIH
          refine ⟨?_, ?_, ?_⟩
          · simp only [List.length_cons] at ih1 ⊢
            omega
          · intro k hk
            match k with
            | 0 =>
              simp only [List.getD_cons_zero, List.getD_cons_succ]
              rw [show pre ++ (l ++ 10 :: rest) = pre ++ ((l ++ [10]) ++ rest) by simp]
              exact slice_first pre l rest
            | k + 1 =>
              simp only [List.getD_cons_succ]
              have := ih2 k (by simp only [List.length_cons] at hk ⊢; omega)
              simpa using this
          · have hlenpos : 1 ≤ (nlScan rest (pre.length + l.length + 1)).length + 1 := by
              omega
            simp only [List.length_cons]
            have heq1 : ((nlScan rest (pre.length + l.length + 1)).length + 1 + 1 - 1)
                = ((nlScan rest (pre.length + l.length + 1)).length + 1 - 1) + 1 := by
              omega
            rw [heq1]
            simp only [List.getD_cons_succ]
            have heq2 : (splitNl rest).length + 1 - 1
                = ((splitNl rest).length - 1) + 1 := by
              have : splitNl rest ≠ [] := splitNl_ne_nil rest hrest
              have : 0 < (splitNl rest).length := List.length_pos.mpr this
              omega
            rw [heq2]
            simp only [List.getD_cons_succ]
            simpa using ih3
      · have hlines := splitNl_single body hne (fun b hb h => h10 (h ▸ hb))
        rw [nlScan_no10 body (fun b hb h => h10 (h ▸ hb)), hlines]
        refine ⟨rfl, by intro k hk; simp at hk, Or.inl ?_⟩
        simp only [List.length_singleton, Nat.sub_self, List.getD_cons_zero]
        rw [drop_pre pre body]
  exact H body.length body (Nat.le_refl _) hne pre

theorem splitNl_no10 (data : List Nat) : ∀ l ∈ splitNl data, ∀ b ∈ l, ¬ b = 10 := by
  induction data with
  | nil => intro l hl; simp [splitNl_nil] at hl
  | cons x rest ih =>
    intro l hl
    rw [splitNl_cons] at hl
    by_cases hx : x = 10
    · rw [if_pos hx] at hl
      rcases List.mem_cons.mp hl with h | h
      · subst h; intro b hb; simp at hb
      · exact ih l h
    · rw [if_neg hx] at hl
      cases hrest : splitNl rest with
      | nil =>
        rw [hrest] at hl
        simp only [List.mem_singleton] at hl
        subst hl
        intro b hb
        simp only [List.mem_singleton] at hb
        subst hb
        exact hx
      | cons l0 ls =>
        rw [hrest] at hl
        rcases List.mem_cons.mp hl with h | h
        · subst h
          intro b hb
          rcases List.mem_cons.mp hb with hb | hb
          · subst hb; exact hx
          · exact ih l0 (by rw [hrest]; simp) b hb
        · exact ih l (by rw [hrest]; simp [h])

theorem stripLE_append10 (l : List Nat) : stripLineEnding (l ++ [10]) = stripCr l := by
  unfold stripLineEnding stripCr
  rw [List.getLast?_concat, if_pos rfl, List.dropLast_concat]

theorem stripLE_no10 (l : List Nat) (h : l.getLast? ≠ some 10) :
    stripLineEnding l = stripCr l := by
  unfold stripLineEnding stripCr
  rw [if_neg h]

theorem getLast?_eq_getD (l : List Nat) (h : l ≠ []) :
    l.getLast? = some (l.getD (l.length - 1) 0) := by
  rw [List.getLast?_eq_getLast_of_ne_nil h]
  congr 1
  have hlt : l.length - 1 < l.length := by
    have := List.length_pos.mpr h
    omega
  rw [List.getLast_eq_get, List.getD_eq_get l 0 hlt]

theorem getD_dropLast (l : List Nat) (k : Nat) (hk : k < l.length - 1) :
    l.dropLast.getD k 0 = l.getD k 0 := by
  rw [List.dropLast_eq_take, List.getD_eq_get?, List.getD_eq_get?, List.get?_take hk]

theorem parseHeaders_elim (data : List Nat) (delim : Nat) (hs : List (List Nat))
    (hd : data ≠ []) (h : parseHeaders data delim = .ok hs) :
    validUtf8 (stripCr (data.takeWhile (fun b => ¬ b = 10))) = true ∧
    hs = parseRow (stripCr (data.takeWhile (fun b => ¬ b = 10))) delim := by
  have hfl : firstLine data = some (stripCr (data.takeWhile (fun b => ¬ b = 10))) := by
    unfold firstLine
    rw [if_neg hd]
  unfold parseHeaders at h
  rw [hfl] at h
  simp only [] at h
  split_ifs at h with hv
  simp only [Except.ok.injEq] at h
  exact ⟨hv, h.symm⟩

theorem open_ok_elim (data : List Nat) (r : CsvReader)
    (h : CsvReader.open data = .ok r) :
    data ≠ [] ∧
    r.mmap = data ∧
    r.delimiter = (detectDelimiter data).asByte ∧
    r.lineIndex = buildIndex data (headerEndOf data) ∧
    validUtf8 (stripCr (data.takeWhile (fun b => ¬ b = 10))) = true ∧
    r.headers = parseRow (stripCr (data.takeWhile (fun b => ¬ b = 10))) r.delimiter := by
  by_cases hd : data = []
  · unfold CsvReader.open at h
    rw [if_pos hd] at h
    exact Except.noConfusion h
  · unfold CsvReader.open at h
    rw [if_neg hd] at h
    simp only [] at h
    cases hph : parseHeaders data ((detectDelimiter data).asByte) with
    | error e =>
      rw [hph] at h
      exact Except.noConfusion h
    | ok hs =>
      rw [hph] at h
      simp only [Except.ok.injEq] at h
      obtain ⟨hv, hhs⟩ := parseHeaders_elim data _ hs hd hph
      subst h
      exact ⟨hd, rfl, rfl, rfl, hv, hhs⟩

theorem buildIndex_guard (data : List Nat) (ds : Nat) (h : data.length ≤ ds) :
    buildIndex data ds = [] := by
  unfold buildIndex
  rw [if_pos (by omega)]

theorem buildIndex_eq (pre body : List Nat) (hbody : body ≠ []) :
    buildIndex (pre ++ body) pre.length =
      (if (pre.length :: nlScan body pre.length).getD
            ((pre.length :: nlScan body pre.length).length - 1) 0 ≥ (pre ++ body).length ∨
          (stripLineEnding ((pre ++ body).drop
            ((pre.length :: nlScan body pre.length).getD
              ((pre.length :: nlScan body pre.length).length - 1) 0))).all
            (fun b => asciiWhitespace b) = true
       then (pre.length :: nlScan body pre.length).dropLast
       else (pre.length :: nlScan body pre.length)) := by
  unfold buildIndex
  have hlen : ¬ pre.length ≥ (pre ++ body).length := by
    simp only [List.length_append]
    have := List.length_pos.mpr hbody
    omega
  rw [if_neg hlen, drop_pre pre body]
  simp only []
  rw [getLast?_eq_getD (pre.length :: nlScan body pre.length) (by simp)]

theorem open_struct (data : List Nat) (r : CsvReader)
    (h : CsvReader.open data = .ok r) (hpos : 0 < r.rowCount) :
    ∃ tw body, data = tw ++ 10 :: body ∧ (∀ b ∈ tw, ¬ b = 10) ∧ body ≠ [] ∧
      r.mmap = data ∧ r.delimiter = (detectDelimiter data).asByte ∧
      splitNl data = tw :: splitNl body ∧
      ((r.lineIndex = (tw.length + 1) :: nlScan body (tw.length + 1) ∧
        r.rowCount = (splitNl body).length) ∨
       (r.lineIndex = ((tw.length + 1) :: nlScan body (tw.length + 1)).dropLast ∧
        r.rowCount + 1 = (splitNl body).length)) := by
  obtain ⟨hd, hmm, hdel, hidx, _, _⟩ := open_ok_elim data r h
  by_cases h10 : (10 : Nat) ∈ data
  · obtain ⟨tw, body, hdec, hno⟩ := split_at_10 data h10
    have htw : data.takeWhile (fun b => ¬ b = 10) = tw := by
      rw [hdec]
      exact takeWhile_app10 tw body hno
    by_cases hbody : body = []
    · exfalso
      subst hbody
      have hhe : headerEndOf data = data.length := by
        unfold headerEndOf
        rw [htw, hdec]
        simp
      rw [hhe, buildIndex_guard data data.length (Nat.le_refl _)] at hidx
      unfold CsvReader.rowCount at hpos
      rw [hidx] at hpos
      simp at hpos
    · have hhe : headerEndOf data = tw.length + 1 := by
        unfold headerEndOf
        rw [htw, hdec]
        rw [if_pos (by
          simp only [List.length_append, List.length_cons]
          have := List.length_pos.mpr hbody
          omega)]
      rw [hhe] at hidx
      have hpre : data = (tw ++ [10]) ++ body := by rw [hdec]; simp
      have hprelen : (tw ++ [10]).length = tw.length + 1 := by simp
      have hbi := buildIndex_eq (tw ++ [10]) body hbody
      rw [hprelen, ← hpre] at hbi
      rw [hbi] at hidx
      have hreg := regionSpec body hbody (tw ++ [10])
      rw [hprelen, ← hpre] at hreg
      obtain ⟨hlen, _, _⟩ := hreg
      refine ⟨tw, body, hdec, hno, hbody, hmm, hdel, ?_, ?_⟩
      · rw [hdec]
        exact splitNl_cons_line tw body hno
      · split_ifs at hidx with hcond
        · right
          refine ⟨hidx, ?_⟩
          unfold CsvReader.rowCount
          rw [hidx, List.length_dropLast, hlen]
          have : 0 < (splitNl body).length :=
            List.length_pos.mpr (splitNl_ne_nil body hbody)
          omega
        · left
          exact ⟨hidx, by unfold CsvReader.rowCount; rw [hidx, hlen]⟩
  · exfalso
    have hno : ∀ b ∈ data, ¬ b = 10 := fun b hb he => h10 (he ▸ hb)
    have htw : data.takeWhile (fun b => ¬ b = 10) = data := takeWhile_no10 data hno
    have hhe : headerEndOf data = data.length := by
      unfold headerEndOf
      rw [htw]
      simp
    rw [hhe, buildIndex_guard data data.length (Nat.le_refl _)] at hidx
    unfold CsvReader.rowCount at hpos
    rw [hidx] at hpos
    simp at hpos

theorem getRowRaw_oor (r : CsvReader) (i : Nat) (hi : r.rowCount ≤ i) :
    r.getRowRaw i = .error (.rowOutOfRange i r.rowCount) := by
  unfold CsvReader.getRowRaw
  rw [if_pos (by omega)]

theorem getD_mem (l : List (List Nat)) (k : Nat) (hk : k < l.length) :
    l.getD k [] ∈ l := by
  rw [List.getD_eq_get l [] hk]
  exact List.get_mem l k hk

theorem line_getLast_ne10 (l : List Nat) (hl : ∀ b ∈ l, ¬ b = 10) :
    l.getLast? ≠ some 10 := by
  intro hc
  have hmem : (10 : Nat) ∈ l.getLast? := Option.mem_def.mpr hc
  obtain ⟨hne, hx⟩ := List.mem_getLast?_eq_getLast hmem
  exact hl 10 (hx ▸ List.getLast_mem hne) rfl

theorem getRowRaw_middle (data : List Nat) (r : CsvReader)
    (h : CsvReader.open data = .ok r) (i : Nat) (hi : i + 1 < r.rowCount) :
    r.getRowRaw i =
      if validUtf8 (stripCr ((splitNl data).getD (i + 1) []))
      then .ok (stripCr ((splitNl data).getD (i + 1) []))
      else .error (.invalidUtf8 (r.lineIndex.getD i 0)) := by
  have hpos : 0 < r.rowCount := by omega
  obtain ⟨tw, body, hdec, hno, hbody, hmm, hdel, hsplit, hcases⟩ := open_struct data r h hpos
  have hreg := regionSpec body hbody (tw ++ [10])
  have hprelen : (tw ++ [10]).length = tw.length + 1 := by simp
  have hdata : (tw ++ [10]) ++ body = data := by rw [hdec]; simp
  rw [hprelen, hdata] at hreg
  obtain ⟨hlen, hmid, _⟩ := hreg
  have hoff : i + 1 < ((tw.length + 1) :: nlScan body (tw.length + 1)).length := by
    rcases hcases with ⟨hidx, hcount⟩ | ⟨hidx, hcount⟩
    · rw [hlen]; omega
    · rw [hlen]; omega
  have hgi : r.lineIndex.getD i 0 =
      ((tw.length + 1) :: nlScan body (tw.length + 1)).getD i 0 := by
    rcases hcases with ⟨hidx, _⟩ | ⟨hidx, hcount⟩
    · rw [hidx]
    · rw [hidx]
      exact getD_dropLast _ i (by rw [hlen]; omega)
  have hgi1 : r.lineIndex.getD (i + 1) 0 =
      ((tw.length + 1) :: nlScan body (tw.length + 1)).getD (i + 1) 0 := by
    rcases hcases with ⟨hidx, _⟩ | ⟨hidx, hcount⟩
    · rw [hidx]
    · rw [hidx]
      exact getD_dropLast _ (i + 1) (by rw [hlen]; omega)
  unfold CsvReader.getRowRaw
  simp only []
  rw [if_neg (by omega), if_pos hi, hgi, hgi1, hmm]
  rw [hmid i hoff, stripLE_append10, hsplit, List.getD_cons_succ]

theorem getRowRaw_last_nopop (data : List Nat) (r : CsvReader)
    (h : CsvReader.open data = .ok r) (i : Nat) (hi : i + 1 = r.rowCount)
    (hnop : r.rowCount + 1 = (splitNl data).length) :
    r.getRowRaw i =
      if validUtf8 (stripCr ((splitNl data).getD (i + 1) []))
      then .ok (stripCr ((splitNl data).getD (i + 1) []))
      else .error (.invalidUtf8 (r.lineIndex.getD i 0)) := by
  have hpos : 0 < r.rowCount := by omega
  obtain ⟨tw, body, hdec, hno, hbody, hmm, hdel, hsplit, hcases⟩ := open_struct data r h hpos
  have hreg := regionSpec body hbody (tw ++ [10])
  have hprelen : (tw ++ [10]).length = tw.length + 1 := by simp
  have hdata : (tw ++ [10]) ++ body = data := by rw [hdec]; simp
  rw [hprelen, hdata] at hreg
  obtain ⟨hlen, _, hlast⟩ := hreg
  have hlines : (splitNl data).length = (splitNl body).length + 1 := by
    rw [hsplit]
    simp
  rcases hcases with ⟨hidx, hcount⟩ | ⟨hidx, hcount⟩
  · have hoix : i = ((tw.length + 1) :: nlScan body (tw.length + 1)).length - 1 := by
      rw [hlen]
      omega
    have hlix : (splitNl body).length - 1 = i := by omega
    rw [← hoix, hlix] at hlast
    have hgetline : (splitNl body).getD i [] = (splitNl data).getD (i + 1) [] := by
      rw [hsplit, List.getD_cons_succ]
    rw [hgetline] at hlast
    have hmemline : (splitNl data).getD (i + 1) [] ∈ splitNl body := by
      rw [← hgetline]
      exact getD_mem _ i (by omega)
    unfold CsvReader.getRowRaw
    simp only []
    rw [if_neg (show ¬ i ≥ r.rowCount by omega),
      if_neg (show ¬ (i + 1 < r.rowCount) by omega), hidx, hmm]
    rw [show sliceBytes data
        (((tw.length + 1) :: nlScan body (tw.length + 1)).getD i 0) data.length =
        data.drop (((tw.length + 1) :: nlScan body (tw.length + 1)).getD i 0) by
      unfold sliceBytes
      rw [List.take_length]]
    rcases hlast with h1 | h1
    · rw [h1, stripLE_no10 _ (line_getLast_ne10 _ (splitNl_no10 body _ hmemline))]
    · rw [h1, stripLE_append10]
  · omega

/-- C7 amended: for `i ≥ row_count`, `get_row_raw(i)` fails with
`RowOutOfRange(i, row_count)`.  For `i + 1 < row_count` it returns exactly the
bytes of line `i+1` of the file with one trailing `\n` and then one trailing
`\r` removed, or fails `InvalidUtf8` at `index[i]` when those bytes do not
decode.  The same holds for the last row provided no trailing whitespace-only
line was dropped when the index was built (`row_count + 1` equals the file's
line count); when a line was dropped, the last row's slice runs to the end of
the file and may include the dropped tail (`c7_counterexample`). -/
theorem c7_get_row_raw_amended (data : List Nat) (r : CsvReader)
    (hopen : CsvReader.open data = .ok r) (i : Nat) :
    (r.rowCount ≤ i → r.getRowRaw i = .error (.rowOutOfRange i r.rowCount)) ∧
    (i + 1 < r.rowCount →
      r.getRowRaw i =
        if validUtf8 (stripCr ((splitNl data).getD (i + 1) []))
        then .ok (stripCr ((splitNl data).getD (i + 1) []))
        else .error (.invalidUtf8 (r.lineIndex.getD i 0))) ∧
    (i + 1 = r.rowCount → r.rowCount + 1 = (splitNl data).length →
      r.getRowRaw i =
        if validUtf8 (stripCr ((splitNl data).getD (i + 1) []))
        then .ok (stripCr ((splitNl data).getD (i + 1) []))
        else .error (.invalidUtf8 (r.lineIndex.getD i 0))) :=
  ⟨fun hi => getRowRaw_oor r i hi,
   fun hi => getRowRaw_middle data r hopen i hi,
   fun hi hnop => getRowRaw_last_nopop data r hopen i hi hnop⟩

theorem c7_witness :
    0 + 1 < c7reader.rowCount ∧
    c7reader.getRowRaw 0 =
      (if validUtf8 (stripCr ((splitNl (bytes ("h\na\nb\n"))).getD (0 + 1) []))
       then .ok (stripCr ((splitNl (bytes ("h\na\nb\n"))).getD (0 + 1) []))
       else .error (.invalidUtf8 (c7reader.lineIndex.getD 0 0))) :=
  ⟨by decide,
   (c7_get_row_raw_amended (bytes ("h\na\nb\n")) c7reader rfl 0).2.1 (by decide)⟩

/-- C7 counterexample: on the file `"h\na\n \n"` the whitespace-only third
line is dropped from the index, and `get_row_raw(0)` — the last remaining
row — returns `"a\n "` (the slice to end-of-file, one `\n` stripped), not the
bytes `"a"` of line 2 minus its terminator, even though the slice is valid
UTF-8. -/
theorem c7_counterexample :
    CsvReader.open c7data = .ok c7readerPop ∧
    c7readerPop.rowCount = 1 ∧
    c7readerPop.getRowRaw 0 = .ok (bytes ("a\n ")) ∧
    stripCr ((splitNl c7data).getD 1 []) = bytes ("a") ∧
    validUtf8 (bytes ("a\n ")) = true ∧
    ¬ bytes ("a\n ") = bytes ("a") :=
  ⟨rfl, rfl, rfl, rfl, rfl, by decide⟩

/-! ## Editor save -/

theorem saveCore_ok_eq (e : CsvEditor) (file : List Nat) (fio : SaveIo)
    (lines : List (List Nat)) :
    saveCore e file fio (.ok lines) =
      (if fio.writeOk = false then (.error .ioError, e, file)
       else if fio.flushOk = false then (.error .ioError, e, file)
       else if fio.renameOk = false then (.error .ioError, e, file)
       else if fio.reopenOk = false then (.error .ioError, e, newFileBytes e lines)
       else saveReopen e (newFileBytes e lines)
         (CsvReader.open (newFileBytes e lines))) := rfl

/-- C1 amended: when `save()` fails, the editor — its reader and its pending
edit map — is exactly as before the call.  The original file's bytes are also
unchanged for a failure at temp-file creation, writing (including reading an
unedited row), flushing, or the rename itself; but when the failure is the
post-rename re-open, the rename has already replaced the file, whose contents
are then the newly written bytes (`c1_counterexample`). -/
theorem c1_save_failure_amended (e : CsvEditor) (file : List Nat) (fio : SaveIo)
    (er : MassiveCsvError) (h : (e.save file fio).1 = .error er) :
    (e.save file fio).2.1 = e ∧
    ((fio.tempOk = false ∨ (∃ er2, computeLines e = .error er2) ∨
        fio.writeOk = false ∨ fio.flushOk = false ∨ fio.renameOk = false) →
      (e.save file fio).2.2 = file) ∧
    (∀ lines, computeLines e = .ok lines → fio.tempOk = true →
      fio.writeOk = true → fio.flushOk = true → fio.renameOk = true →
      (e.save file fio).2.2 = newFileBytes e lines) := by
  unfold CsvEditor.save at h ⊢
  by_cases hemp : e.edits.isEmpty = true
  · rw [if_pos hemp] at h
    exact absurd h (by simp)
  · rw [if_neg hemp] at h ⊢
    by_cases ht : fio.tempOk = false
    · rw [if_pos ht] at h ⊢
      refine ⟨rfl, fun _ => rfl, fun lines _ htt _ _ _ => ?_⟩
      rw [ht] at htt
      exact Bool.noConfusion htt
    · rw [if_neg ht] at h ⊢
      cases hcl : computeLines e with
      | error er2 =>
        refine ⟨rfl, fun _ => rfl, fun lines hlcl _ _ _ _ => ?_⟩
        exact Except.noConfusion hlcl
      | ok lines =>
        rw [hcl] at h
        rw [saveCore_ok_eq] at h ⊢
        by_cases hw : fio.writeOk = false
        · rw [if_pos hw] at h ⊢
          refine ⟨rfl, fun _ => rfl, fun lines2 _ _ hwt _ _ => ?_⟩
          rw [hw] at hwt
          exact Bool.noConfusion hwt
        · rw [if_neg hw] at h ⊢
          by_cases hf : fio.flushOk = false
          · rw [if_pos hf] at h ⊢
            refine ⟨rfl, fun _ => rfl, fun lines2 _ _ _ hft _ => ?_⟩
            rw [hf] at hft
            exact Bool.noConfusion hft
          · rw [if_neg hf] at h ⊢
            by_cases hr : fio.renameOk = false
            · rw [if_pos hr] at h ⊢
              refine ⟨rfl, fun _ => rfl, fun lines2 _ _ _ _ hrt => ?_⟩
              rw [hr] at hrt
              exact Bool.noConfusion hrt
            · rw [if_neg hr] at h ⊢
              by_cases hro : fio.reopenOk = false
              · rw [if_pos hro] at h ⊢
                refine ⟨rfl, ?_, fun lines2 hl _ _ _ _ => ?_⟩
                · rintro (h1 | ⟨er2, h2⟩ | h1 | h1 | h1)
                  · exact absurd h1 ht
                  · exact Except.noConfusion h2
                  · exact absurd h1 hw
                  · exact absurd h1 hf
                  · exact absurd h1 hr
                · rw [← Except.ok.inj hl]
              · rw [if_neg hro] at h ⊢
                cases hop : CsvReader.open (newFileBytes e lines) with
                | error er3 =>
                  refine ⟨rfl, ?_, fun lines2 hl _ _ _ _ => ?_⟩
                  · rintro (h1 | ⟨er2, h2⟩ | h1 | h1 | h1)
                    · exact absurd h1 ht
                    · exact Except.noConfusion h2
                    · exact absurd h1 hw
                    · exact absurd h1 hf
                    · exact absurd h1 hr
                  · rw [← Except.ok.inj hl]
                    rfl
                | ok r' =>
                  rw [hop] at h
                  exact absurd h (by simp [saveReopen])

theorem c1_witness :
    (c1editor.save (bytes ("h\na\n")) ⟨false, true, true, true, true⟩).2.1 =
      c1editor ∧
    (c1editor.save (bytes ("h\na\n")) ⟨false, true, true, true, true⟩).2.2 =
      bytes ("h\na\n") :=
  have happ := c1_save_failure_amended c1editor (bytes ("h\na\n"))
    ⟨false, true, true, true, true⟩ .ioError rfl
  ⟨happ.1, happ.2.1 (Or.inl rfl)⟩

/-- C1 counterexample: with every filesystem step succeeding except the
post-rename re-open, `save` fails with Io, the edit map (and the whole editor)
is unchanged — but the file on disk is the newly written `"h\nb\n"`, not the
original `"h\na\n"`: a failing save at the re-open step does not leave the
original file's bytes unchanged. -/
theorem c1_counterexample :
    CsvReader.open (bytes ("h\na\n")) = .ok c1reader ∧
    (c1editor.save (bytes ("h\na\n")) c1fio).1 = .error .ioError ∧
    (c1editor.save (bytes ("h\na\n")) c1fio).2.1 = c1editor ∧
    (c1editor.save (bytes ("h\na\n")) c1fio).2.2 = bytes ("h\nb\n") ∧
    ¬ (c1editor.save (bytes ("h\na\n")) c1fio).2.2 = bytes ("h\na\n") :=
  ⟨rfl, rfl, rfl, rfl, by decide⟩

theorem mapM_except_ok {α β : Type} (f : α → Except MassiveCsvError β) :
    ∀ (l : List α) (out : List β), l.mapM f = .ok out →
      out.length = l.length ∧
      ∀ k a, l.get? k = some a → ∃ b, f a = .ok b ∧ out.get? k = some b := by
  intro l
  induction l with
  | nil =>
    intro out h
    rw [List.mapM_nil] at h
    have hout : out = [] := by
      have : (Except.ok [] : Except MassiveCsvError (List β)) = .ok out := h
      simpa using this.symm
    subst hout
    exact ⟨rfl, by intro k a hk; simp at hk⟩
  | cons a t ih =>
    intro out h
    rw [List.mapM_cons] at h
    cases hfa : f a with
    | error er =>
      rw [hfa] at h
      simp only [Bind.bind, Except.bind] at h
      exact Except.noConfusion h
    | ok b =>
      rw [hfa] at h
      simp only [Bind.bind, Except.bind] at h
      cases hml : t.mapM f with
      | error er =>
        rw [hml] at h
        exact Except.noConfusion h
      | ok bs =>
        rw [hml] at h
        have hout : out = b :: bs := by
          have : (Except.ok (b :: bs) : Except MassiveCsvError (List β)) = .ok out := h
          simpa using this.symm
        subst hout
        obtain ⟨hlen, hget⟩ := ih bs hml
        refine ⟨by simp [hlen], ?_⟩
        intro k x hk
        match k with
        | 0 =>
          simp only [List.get?_cons_zero, Option.some.injEq] at hk
          subst hk
          exact ⟨b, hfa, by simp⟩
        | k + 1 =>
          simp only [List.get?_cons_succ] at hk ⊢
          exact hget k x hk

theorem computeLines_spec (e : CsvEditor) (lines : List (List Nat))
    (h : computeLines e = .ok lines) :
    lines.length = e.reader.rowCount ∧
    ∀ k, k < e.reader.rowCount →
      (∀ fs, lookupEdit e.edits k = some fs →
        lines.getD k [] = serializeRow fs e.reader.delimiter) ∧
      (lookupEdit e.edits k = none →
        e.reader.getRowRaw k = .ok (lines.getD k [])) := by
  unfold computeLines at h
  obtain ⟨hlen, hget⟩ := mapM_except_ok _ _ lines h
  refine ⟨by rw [hlen, List.length_range], ?_⟩
  intro k hk
  have hrk : (List.range e.reader.rowCount).get? k = some k := List.get?_range hk
  obtain ⟨b, hfb, houtk⟩ := hget k k hrk
  have hgetD : lines.getD k [] = b := by
    rw [List.getD_eq_get?, houtk]
    rfl
  constructor
  · intro fs hfs
    rw [hfs] at hfb
    simp only [Except.ok.injEq] at hfb
    rw [hgetD, ← hfb]
  · intro hnone
    rw [hnone] at hfb
    rw [hgetD]
    exact hfb

theorem getRowRaw_ok_valid (r : CsvReader) (k : Nat) (v : List Nat)
    (h : r.getRowRaw k = .ok v) : validUtf8 v = true := by
  unfold CsvReader.getRowRaw at h
  simp only [] at h
  split_ifs at h <;>
    first
      | exact Except.noConfusion h
      | (simp only [Except.ok.injEq] at h; rw [← h]; assumption)

theorem save_ok_elim (e : CsvEditor) (file : List Nat) (fio : SaveIo)
    (hne : ¬ e.edits.isEmpty = true) (h : (e.save file fio).1 = .ok ()) :
    ∃ lines r', computeLines e = .ok lines ∧
      CsvReader.open (newFileBytes e lines) = .ok r' ∧
      e.save file fio = (.ok (), ⟨r', []⟩, newFileBytes e lines) := by
  unfold CsvEditor.save at h
  rw [if_neg hne] at h
  by_cases ht : fio.tempOk = false
  · rw [if_pos ht] at h
    exact absurd h (by simp)
  · rw [if_neg ht] at h
    cases hcl : computeLines e with
    | error er =>
      rw [hcl] at h
      exact absurd h (by simp [saveCore])
    | ok lines =>
      rw [hcl, saveCore_ok_eq] at h
      by_cases hw : fio.writeOk = false
      · rw [if_pos hw] at h
        exact absurd h (by simp)
      · rw [if_neg hw] at h
        by_cases hf : fio.flushOk = false
        · rw [if_pos hf] at h
          exact absurd h (by simp)
        · rw [if_neg hf] at h
          by_cases hr : fio.renameOk = false
          · rw [if_pos hr] at h
            exact absurd h (by simp)
          · rw [if_neg hr] at h
            by_cases hro : fio.reopenOk = false
            · rw [if_pos hro] at h
              exact absurd h (by simp)
            · rw [if_neg hro] at h
              cases hop : CsvReader.open (newFileBytes e lines) with
              | error er =>
                rw [hop] at h
                exact absurd h (by simp [saveReopen])
              | ok r' =>
                refine ⟨lines, r', rfl, hop, ?_⟩
                unfold CsvEditor.save
                rw [if_neg hne, if_neg ht, hcl, saveCore_ok_eq, if_neg hw,
                  if_neg hf, if_neg hr, if_neg hro, hop]
                rfl

theorem linesBytes_cons (l : List Nat) (ls : List (List Nat)) :
    linesBytes (l :: ls) = l ++ 10 :: linesBytes ls := rfl

theorem linesBytes_ne_nil (Ls : List (List Nat)) (h : Ls ≠ []) :
    linesBytes Ls ≠ [] := by
  cases Ls with
  | nil => exact absurd rfl h
  | cons l ls =>
    rw [linesBytes_cons]
    simp

theorem splitNl_linesBytes (Ls : List (List Nat)) (hLs : Ls ≠ [])
    (hno10 : ∀ l ∈ Ls, ∀ b ∈ l, ¬ b = 10) : splitNl (linesBytes Ls) = Ls := by
  induction Ls with
  | nil => exact absurd rfl hLs
  | cons l ls ih =>
    rw [linesBytes_cons, splitNl_cons_line l _ (hno10 l (by simp))]
    by_cases hls : ls = []
    · subst hls
      rw [show linesBytes [] = [] from rfl, splitNl_nil]
    · rw [ih hls (fun x hx => hno10 x (by simp [hx]))]

theorem mem_stripCr (l : List Nat) (b : Nat) (hb : b ∈ l) (hb13 : ¬ b = 13) :
    b ∈ stripCr l := by
  unfold stripCr
  split_ifs with h
  · have hrec := List.dropLast_append_getLast? 13 (Option.mem_def.mpr h)
    rw [← hrec] at hb
    rcases List.mem_append.mp hb with h1 | h1
    · exact h1
    · simp only [List.mem_singleton] at h1
      exact absurd h1 hb13
  · exact hb

theorem open_structured (H : List Nat) (Ls : List (List Nat))
    (hH10 : ∀ b ∈ H, ¬ b = 10)
    (hLs : Ls ≠ [])
    (hno10 : ∀ l ∈ Ls, ∀ b ∈ l, ¬ b = 10)
    (hlastws : ∃ b ∈ Ls.getD (Ls.length - 1) [], asciiWhitespace b = false)
    (r : CsvReader)
    (hopen : CsvReader.open (H ++ 10 :: linesBytes Ls) = .ok r) :
    r.rowCount = Ls.length ∧
    ∀ k, k < Ls.length →
      r.getRowRaw k =
        if validUtf8 (stripCr (Ls.getD k []))
        then .ok (stripCr (Ls.getD k []))
        else .error (.invalidUtf8 (r.lineIndex.getD k 0)) := by
  have hbody : linesBytes Ls ≠ [] := linesBytes_ne_nil Ls hLs
  have hsplitB : splitNl (linesBytes Ls) = Ls := splitNl_linesBytes Ls hLs hno10
  have hsplitD : splitNl (H ++ 10 :: linesBytes Ls) = H :: Ls := by
    rw [splitNl_cons_line H _ hH10, hsplitB]
  obtain ⟨hd, hmm, hdel, hidx, _, _⟩ := open_ok_elim _ r hopen
  have htw : (H ++ 10 :: linesBytes Ls).takeWhile (fun b => ¬ b = 10) = H :=
    takeWhile_app10 H _ hH10
  have hlendata : (H ++ 10 :: linesBytes Ls).length =
      H.length + 1 + (linesBytes Ls).length := by
    simp only [List.length_append, List.length_cons]
    omega
  have hhe : headerEndOf (H ++ 10 :: linesBytes Ls) = H.length + 1 := by
    unfold headerEndOf
    rw [htw, if_pos (by
      rw [hlendata]
      have := List.length_pos.mpr hbody
      omega)]
  rw [hhe] at hidx
  have hpre : H ++ 10 :: linesBytes Ls = (H ++ [10]) ++ linesBytes Ls := by simp
  have hprelen : (H ++ [10]).length = H.length + 1 := by simp
  have hbi := buildIndex_eq (H ++ [10]) (linesBytes Ls) hbody
  rw [hprelen, ← hpre] at hbi
  have hreg := regionSpec (linesBytes Ls) hbody (H ++ [10])
  rw [hprelen, ← hpre, hsplitB] at hreg
  obtain ⟨hlen, _, hlast3⟩ := hreg
  obtain ⟨wb, hwmem, hwf⟩ := hlastws
  have hwlast13 : ¬ wb = 13 := by
    intro hc
    rw [hc] at hwf
    simp [asciiWhitespace] at hwf
  have hlastmem : Ls.getD (Ls.length - 1) [] ∈ Ls :=
    getD_mem Ls _ (by
      have := List.length_pos.mpr hLs
      omega)
  have hstrip : stripLineEnding ((H ++ 10 :: linesBytes Ls).drop
      (((H.length + 1) :: nlScan (linesBytes Ls) (H.length + 1)).getD
        (((H.length + 1) :: nlScan (linesBytes Ls) (H.length + 1)).length - 1) 0)) =
      stripCr (Ls.getD (Ls.length - 1) []) := by
    rcases hlast3 with h1 | h1
    · rw [h1]
      exact stripLE_no10 _ (line_getLast_ne10 _ (hno10 _ hlastmem))
    · rw [h1]
      exact stripLE_append10 _
  have hnows : ((stripLineEnding ((H ++ 10 :: linesBytes Ls).drop
      (((H.length + 1) :: nlScan (linesBytes Ls) (H.length + 1)).getD
        (((H.length + 1) :: nlScan (linesBytes Ls) (H.length + 1)).length - 1) 0))).all
      (fun b => asciiWhitespace b)) = false := by
    rw [hstrip]
    rw [List.all_eq_false]
    exact ⟨wb, mem_stripCr _ wb hwmem hwlast13, by rw [hwf]; simp⟩
  have hdropne : (H ++ 10 :: linesBytes Ls).drop
      (((H.length + 1) :: nlScan (linesBytes Ls) (H.length + 1)).getD
        (((H.length + 1) :: nlScan (linesBytes Ls) (H.length + 1)).length - 1) 0) ≠ [] := by
    rcases hlast3 with h1 | h1
    · rw [h1]
      intro hc
      rw [hc] at hwmem
      simp at hwmem
    · rw [h1]
      simp
  have hlastlt : ¬ ((H.length + 1) :: nlScan (linesBytes Ls) (H.length + 1)).getD
      (((H.length + 1) :: nlScan (linesBytes Ls) (H.length + 1)).length - 1) 0 ≥
      (H ++ 10 :: linesBytes Ls).length := by
    intro hge
    exact hdropne (List.drop_eq_nil_iff_le.mpr hge)
  rw [hbi, if_neg (by
    rw [hnows]
    simp only [Bool.false_eq_true, or_false]
    exact hlastlt)] at hidx
  have hcount : r.rowCount = Ls.length := by
    unfold CsvReader.rowCount
    rw [hidx]
    rw [hlen]
  refine ⟨hcount, ?_⟩
  intro k hk
  by_cases hmid : k + 1 < r.rowCount
  · have := getRowRaw_middle _ r hopen k hmid
    rw [hsplitD, List.getD_cons_succ] at this
    exact this
  · have hklast : k + 1 = r.rowCount := by omega
    have hnop : r.rowCount + 1 = (splitNl (H ++ 10 :: linesBytes Ls)).length := by
      rw [hsplitD, hcount]
      simp
    have := getRowRaw_last_nopop _ r hopen k hklast hnop
    rw [hsplitD, List.getD_cons_succ] at this
    exact this

/-- C2 amended: after a successful `save()` on a non-empty edit map,
`has_changes()` is false, `edit_count()` is 0, and — provided the written
lines contain no embedded newline byte, do not end in a stray `\r`, are valid
UTF-8, the last one is not whitespace-only, the serialized header contains no
newline, and re-detection on the new file yields the same delimiter —
`row_count()` is unchanged and `get_row(i)` returns the pending edit for `i`
(or the original parsed row when `i` was never set).  Without those side
conditions the claim fails: an edited field containing a newline changes
`row_count()` (`c2_counterexample`). -/
theorem c2_save_success_amended (e : CsvEditor) (file : List Nat) (fio : SaveIo)
    (lines : List (List Nat))
    (hlines : computeLines e = .ok lines)
    (hne : ¬ e.edits.isEmpty = true)
    (hsave : (e.save file fio).1 = .ok ())
    (hH10 : ∀ b ∈ serializeRow e.reader.headers e.reader.delimiter, ¬ b = 10)
    (hno10 : ∀ l ∈ lines, ∀ b ∈ l, ¬ b = 10)
    (hno13 : ∀ l ∈ lines, ¬ l.getLast? = some 13)
    (hvalid : ∀ l ∈ lines, validUtf8 l = true)
    (hlastws : ∃ b ∈ lines.getD (lines.length - 1) [], asciiWhitespace b = false)
    (hdetect : (detectDelimiter (newFileBytes e lines)).asByte = e.reader.delimiter) :
    ((e.save file fio).2.1.hasChanges = false) ∧
    ((e.save file fio).2.1.editCount = 0) ∧
    ((e.save file fio).2.1.reader.rowCount = e.reader.rowCount) ∧
    (∀ i, i < e.reader.rowCount →
      (e.save file fio).2.1.getRow i =
        (match lookupEdit e.edits i with
         | some fs => Except.ok fs
         | none => e.reader.getRow i)) := by
  obtain ⟨lines', r', hcl', hop, hsaveeq⟩ := save_ok_elim e file fio hne hsave
  have hll : lines' = lines := by
    have := hlines.symm.trans hcl'
    simpa using this.symm
  subst hll
  rw [hsaveeq]
  have hLs : lines' ≠ [] := by
    intro hc
    rw [hc] at hlastws
    simp at hlastws
  have hstructured := open_structured
    (serializeRow e.reader.headers e.reader.delimiter) lines' hH10 hLs hno10
    hlastws r' hop
  obtain ⟨hcount, hrows⟩ := hstructured
  obtain ⟨hlenL, hper⟩ := computeLines_spec e lines' hlines
  have hrdel : r'.delimiter = e.reader.delimiter := by
    obtain ⟨_, _, hdel, _, _, _⟩ := open_ok_elim _ r' hop
    rw [hdel]
    exact hdetect
  obtain ⟨dl, hdl⟩ : ∃ dl : Delimiter, e.reader.delimiter = dl.asByte :=
    ⟨_, hdetect.symm⟩
  refine ⟨rfl, rfl, ?_, ?_⟩
  · show r'.rowCount = e.reader.rowCount
    rw [hcount, hlenL]
  · intro i hi
    show CsvEditor.getRow ⟨r', []⟩ i = _
    rw [show CsvEditor.getRow ⟨r', []⟩ i = r'.getRow i from rfl]
    have hiL : i < lines'.length := by omega
    have hrow := hrows i hiL
    have hmemi : lines'.getD i [] ∈ lines' := getD_mem lines' i hiL
    have hstripi : stripCr (lines'.getD i []) = lines'.getD i [] := by
      unfold stripCr
      rw [if_neg (hno13 _ hmemi)]
    rw [hstripi, if_pos (hvalid _ hmemi)] at hrow
    unfold CsvReader.getRow
    rw [hrow]
    cases hlk : lookupEdit e.edits i with
    | some fs =>
      obtain ⟨hed, _⟩ := hper i hi
      have hser := hed fs hlk
      have hrt : parseRow (serializeRow fs dl.asByte) dl.asByte = fs := by
        cases dl <;>
          exact parse_serialize_round fs _ (by decide) (by decide) (by decide)
      rw [show (Except.ok (lines'.getD i []) :
          Except MassiveCsvError (List Nat)).map
            (fun raw => parseRow raw r'.delimiter) =
          Except.ok (parseRow (lines'.getD i []) r'.delimiter) from rfl]
      rw [hser, hrdel, hdl, hrt]
    | none =>
      obtain ⟨_, hraw⟩ := hper i hi
      have hr0 := hraw hlk
      show _ = e.reader.getRow i
      unfold CsvReader.getRow
      rw [hr0, hrdel]

theorem c2_witness :
    ((c2editor.save (bytes ("h\na\nb\n")) allIoOk).2.1.hasChanges = false) ∧
    ((c2editor.save (bytes ("h\na\nb\n")) allIoOk).2.1.reader.rowCount =
      c2editor.reader.rowCount) ∧
    ((c2editor.save (bytes ("h\na\nb\n")) allIoOk).2.1.getRow 0 =
      (match lookupEdit c2editor.edits 0 with
       | some fs => Except.ok fs
       | none => c2editor.reader.getRow 0)) ∧
    ((c2editor.save (bytes ("h\na\nb\n")) allIoOk).2.1.getRow 1 =
      (match lookupEdit c2editor.edits 1 with
       | some fs => Except.ok fs
       | none => c2editor.reader.getRow 1)) :=
  ⟨(c2_save_success_amended c2editor (bytes ("h\na\nb\n")) allIoOk [[99], [98]]
      rfl (by decide) rfl (by decide) (by decide) (by decide) (by decide)
      (by decide) (by decide)).1,
   (c2_save_success_amended c2editor (bytes ("h\na\nb\n")) allIoOk [[99], [98]]
      rfl (by decide) rfl (by decide) (by decide) (by decide) (by decide)
      (by decide) (by decide)).2.2.1,
   (c2_save_success_amended c2editor (bytes ("h\na\nb\n")) allIoOk [[99], [98]]
      rfl (by decide) rfl (by decide) (by decide) (by decide) (by decide)
      (by decide) (by decide)).2.2.2 0 (by decide),
   (c2_save_success_amended c2editor (bytes ("h\na\nb\n")) allIoOk [[99], [98]]
      rfl (by decide) rfl (by decide) (by decide) (by decide) (by decide)
      (by decide) (by decide)).2.2.2 1 (by decide)⟩

/-- C2 counterexample: the editor holds the single edit row 0 ↦ `["a\nb"]` on
a one-row file.  `save` succeeds, but the quoted newline written into the file
splits into two indexed rows on re-open: `row_count()` changes from 1 to 2,
and `get_row(0)` no longer returns the value that was set. -/
theorem c2_counterexample :
    CsvReader.open (bytes ("h\n1\n")) = .ok c2ceReader ∧
    c2ceEditor.edits = [(0, [bytes ("a\nb")])] ∧
    (c2ceEditor.save (bytes ("h\n1\n")) allIoOk).1 = .ok () ∧
    c2ceEditor.reader.rowCount = 1 ∧
    (c2ceEditor.save (bytes ("h\n1\n")) allIoOk).2.1.reader.rowCount = 2 ∧
    ¬ (c2ceEditor.save (bytes ("h\n1\n")) allIoOk).2.1.getRow 0 =
        .ok [bytes ("a\nb")] :=
  ⟨rfl, rfl, rfl, rfl, rfl, by intro hc; exact absurd (Except.ok.inj hc) (by decide)⟩

/-! ## Search -/

theorem rowPred_rowNum (r : CsvReader) (q : List Nat) (ci : Bool)
    (colIdx : Option Nat) (i : Nat) (x : SearchResult)
    (h : rowPred r q ci colIdx i = some x) : x.rowNum = i := by
  unfold rowPred at h
  cases hraw : r.getRowRaw i with
  | error er =>
    rw [hraw] at h
    exact Option.noConfusion h
  | ok raw =>
    rw [hraw] at h
    simp only [] at h
    by_cases h1 : ¬ textMatch ci raw q = true
    · rw [if_pos h1] at h
      exact Option.noConfusion h
    · rw [if_neg h1] at h
      cases colIdx with
      | none =>
        simp only [Option.some.injEq] at h
        rw [← h]
      | some c =>
        simp only [] at h
        cases hf : (parseRow raw r.delimiter).get? c with
        | none =>
          rw [hf] at h
          exact Option.noConfusion h
        | some f =>
          rw [hf] at h
          simp only [] at h
          by_cases h2 : textMatch ci f q = true
          · rw [if_pos h2] at h
            simp only [Option.some.injEq] at h
            rw [← h]
          · rw [if_neg h2] at h
            exact Option.noConfusion h

theorem filterMap_range_pairwise (f : Nat → Option SearchResult)
    (hf : ∀ i x, f i = some x → x.rowNum = i) (n : Nat) :
    List.Pairwise (fun a b => a.rowNum < b.rowNum) ((List.range n).filterMap f) := by
  induction n with
  | zero => simp
  | succ n ih =>
    rw [List.range_succ, List.filterMap_append]
    apply List.pairwise_append.mpr
    refine ⟨ih, ?_, ?_⟩
    · cases hfn : f n <;> simp [List.filterMap_cons, hfn]
    · intro a ha b hb
      obtain ⟨i, hi, hfi⟩ := List.mem_filterMap.mp ha
      obtain ⟨j, hj, hfj⟩ := List.mem_filterMap.mp hb
      have hjn : j = n := by simpa using hj
      subst hjn
      rw [hf i a hfi, hf j b hfj]
      exact List.mem_range.mp hi

theorem take_pairwise_bound (l : List SearchResult) (k : Nat) (x : SearchResult)
    (hp : List.Pairwise (fun a b => a.rowNum < b.rowNum) l)
    (hx : x ∈ l) (hnx : x ∉ l.take k) :
    (l.take k).length = k ∧ ∀ y ∈ l.take k, y.rowNum < x.rowNum := by
  constructor
  · rw [List.length_take]
    by_cases h : l.length ≤ k
    · exfalso
      apply hnx
      rw [List.take_of_length_le h]
      exact hx
    · omega
  · intro y hy
    have hxdrop : x ∈ l.drop k := by
      have happ := List.take_append_drop k l
      rw [← happ] at hx
      rcases List.mem_append.mp hx with h | h
      · exact absurd h hnx
      · exact h
    have hp2 : List.Pairwise (fun a b => a.rowNum < b.rowNum)
        (l.take k ++ l.drop k) := by
      rw [List.take_append_drop]
      exact hp
    obtain ⟨_, _, cross⟩ := List.pairwise_append.mp hp2
    exact cross y hy x hxdrop

theorem search_resolve_ok (r : CsvReader) (q : List Nat) (opts : SearchOptions)
    (colIdx : Option Nat) (h : resolveColumn r opts = .ok colIdx) :
    search r q opts =
      (if opts.maxResults > 0 ∧
          ((List.range r.rowCount).filterMap
            (rowPred r q opts.caseInsensitive colIdx)).length > opts.maxResults
       then .ok (((List.range r.rowCount).filterMap
          (rowPred r q opts.caseInsensitive colIdx)).take opts.maxResults)
       else .ok ((List.range r.rowCount).filterMap
          (rowPred r q opts.caseInsensitive colIdx))) := by
  unfold search
  rw [h]


theorem rowPred_of_match (r : CsvReader) (q : List Nat) (ci : Bool)
    (colIdx : Option Nat) (i : Nat) (raw : List Nat)
    (hraw : r.getRowRaw i = .ok raw)
    (hm : textMatch ci raw q = true)
    (hcol : ∀ c, colIdx = some c → ∃ f,
      (parseRow raw r.delimiter).get? c = some f ∧ textMatch ci f q = true) :
    rowPred r q ci colIdx i = some ⟨i, parseRow raw r.delimiter⟩ := by
  unfold rowPred
  rw [hraw]
  simp only []
  rw [if_neg (by simp [hm])]
  cases colIdx with
  | none => rfl
  | some c =>
    obtain ⟨f, hf, htm⟩ := hcol c rfl
    simp only []
    rw [hf]
    simp only []
    rw [if_pos htm]

theorem rowPred_raw_ok (r : CsvReader) (q : List Nat) (ci : Bool)
    (colIdx : Option Nat) (i : Nat) (x : SearchResult)
    (h : rowPred r q ci colIdx i = some x) :
    ∃ raw, r.getRowRaw i = .ok raw := by
  unfold rowPred at h
  cases hraw : r.getRowRaw i with
  | error er =>
    rw [hraw] at h
    exact Option.noConfusion h
  | ok raw => exact ⟨raw, rfl⟩

/-- C4: if row `i` is in range, its raw text matches the query under the case
policy, and (when a column is restricted) its field at the resolved column
matches too, then a result with `rowNum = i` is returned, unless truncation
removed it, in which case the result list is full (`maxResults` long) and
every returned row index is lower than `i`. -/
theorem c4_search_complete (r : CsvReader) (q : List Nat) (opts : SearchOptions)
    (colIdx : Option Nat) (i : Nat) (raw : List Nat)
    (hres : resolveColumn r opts = .ok colIdx)
    (hi : i < r.rowCount)
    (hraw : r.getRowRaw i = .ok raw)
    (hm : textMatch opts.caseInsensitive raw q = true)
    (hcol : ∀ c, colIdx = some c → ∃ f,
      (parseRow raw r.delimiter).get? c = some f ∧
        textMatch opts.caseInsensitive f q = true) :
    ∃ res, search r q opts = .ok res ∧
      ((∃ x ∈ res, x.rowNum = i) ∨
       (opts.maxResults > 0 ∧ res.length = opts.maxResults ∧
         ∀ y ∈ res, y.rowNum < i)) := by
  have hrp := rowPred_of_match r q opts.caseInsensitive colIdx i raw hraw hm hcol
  have hs := search_resolve_ok r q opts colIdx hres
  set L := (List.range r.rowCount).filterMap
      (rowPred r q opts.caseInsensitive colIdx) with hL
  have hxL : (⟨i, parseRow raw r.delimiter⟩ : SearchResult) ∈ L := by
    rw [hL]
    exact List.mem_filterMap.mpr ⟨i, List.mem_range.mpr hi, hrp⟩
  have hpw : List.Pairwise (fun a b => a.rowNum < b.rowNum) L := by
    rw [hL]
    exact filterMap_range_pairwise _
      (fun j x hx => rowPred_rowNum r q _ colIdx j x hx) _
  by_cases hc : opts.maxResults > 0 ∧ L.length > opts.maxResults
  · rw [if_pos hc] at hs
    refine ⟨L.take opts.maxResults, hs, ?_⟩
    by_cases hmem :
        (⟨i, parseRow raw r.delimiter⟩ : SearchResult) ∈ L.take opts.maxResults
    · exact Or.inl ⟨_, hmem, rfl⟩
    · obtain ⟨hlen, hlt⟩ := take_pairwise_bound L opts.maxResults _ hpw hxL hmem
      exact Or.inr ⟨hc.1, hlen, hlt⟩
  · rw [if_neg hc] at hs
    exact ⟨L, hs, Or.inl ⟨_, hxL, rfl⟩⟩

theorem c4_witness :
    ∃ res, search c2reader [97] ⟨none, false, 0⟩ = .ok res ∧
      ((∃ x ∈ res, x.rowNum = 0) ∨
       ((0 : Nat) > 0 ∧ res.length = 0 ∧ ∀ y ∈ res, y.rowNum < 0)) :=
  c4_search_complete c2reader [97] ⟨none, false, 0⟩ none 0 [97]
    (by rfl) (by decide) (by rfl) (by rfl)
    (fun c hc => Option.noConfusion hc)

/-- C5: every successful search returns a list strictly ascending in
`rowNum`; it is a prefix of the full list of matches in row order, and when
`maxResults` is positive the length is capped at `maxResults`, hitting it
exactly whenever more rows match. -/
theorem c5_search_order_cap (r : CsvReader) (q : List Nat) (opts : SearchOptions)
    (res : List SearchResult) (h : search r q opts = .ok res) :
    List.Pairwise (fun a b => a.rowNum < b.rowNum) res ∧
    ∃ colIdx, resolveColumn r opts = .ok colIdx ∧
      res <+: (List.range r.rowCount).filterMap
        (rowPred r q opts.caseInsensitive colIdx) ∧
      (opts.maxResults > 0 →
        res.length ≤ opts.maxResults ∧
        (((List.range r.rowCount).filterMap
            (rowPred r q opts.caseInsensitive colIdx)).length > opts.maxResults →
          res.length = opts.maxResults)) := by
  cases hres : resolveColumn r opts with
  | error e =>
    unfold search at h
    rw [hres] at h
    exact Except.noConfusion h
  | ok colIdx =>
    have hs := search_resolve_ok r q opts colIdx hres
    rw [hs] at h
    set L := (List.range r.rowCount).filterMap
        (rowPred r q opts.caseInsensitive colIdx) with hL
    have hpw : List.Pairwise (fun a b => a.rowNum < b.rowNum) L := by
      rw [hL]
      exact filterMap_range_pairwise _
        (fun j x hx => rowPred_rowNum r q _ colIdx j x hx) _
    by_cases hc : opts.maxResults > 0 ∧ L.length > opts.maxResults
    · rw [if_pos hc] at h
      have hr : res = L.take opts.maxResults := (Except.ok.inj h).symm
      subst hr
      refine ⟨List.Pairwise.sublist (List.take_sublist _ _) hpw,
        colIdx, rfl, List.take_prefix _ _, fun _ => ?_⟩
      constructor
      · rw [List.length_take]
        exact Nat.min_le_left _ _
      · intro _
        rw [List.length_take]
        omega
    · rw [if_neg hc] at h
      have hr : res = L := (Except.ok.inj h).symm
      subst hr
      refine ⟨hpw, colIdx, rfl, List.prefix_refl _, fun hm => ?_⟩
      constructor
      · omega
      · intro hlen
        exact absurd ⟨hm, hlen⟩ hc

theorem c5_witness :
    List.Pairwise (fun a b => a.rowNum < b.rowNum)
      [(⟨1, [[98]]⟩ : SearchResult)] ∧
    ∃ colIdx, resolveColumn c2reader ⟨none, false, 0⟩ = .ok colIdx ∧
      [(⟨1, [[98]]⟩ : SearchResult)] <+: (List.range c2reader.rowCount).filterMap
        (rowPred c2reader [98] false colIdx) ∧
      ((0 : Nat) > 0 →
        [(⟨1, [[98]]⟩ : SearchResult)].length ≤ 0 ∧
        (((List.range c2reader.rowCount).filterMap
            (rowPred c2reader [98] false colIdx)).length > 0 →
          [(⟨1, [[98]]⟩ : SearchResult)].length = 0)) :=
  c5_search_order_cap c2reader [98] ⟨none, false, 0⟩ [⟨1, [[98]]⟩] (by rfl)

/-- C8: `search` fails exactly when a column restriction names no header, the
error then being `ColumnNotFound` with that name; rows whose raw slice cannot
be produced (out of range or invalid UTF-8) are silently absent from a
successful result. -/
theorem c8_search_failure_policy (r : CsvReader) (q : List Nat)
    (opts : SearchOptions) :
    ((∃ e, search r q opts = .error e) ↔
      (∃ name, opts.column = some name ∧
        r.headers.findIdx? (fun h => decide (h = name)) = none)) ∧
    (∀ name, opts.column = some name →
      r.headers.findIdx? (fun h => decide (h = name)) = none →
      search r q opts = .error (.columnNotFound name)) ∧
    (∀ res, search r q opts = .ok res →
      ∀ i er, r.getRowRaw i = .error er → ∀ x ∈ res, x.rowNum ≠ i) := by
  have hok : ∀ colIdx, resolveColumn r opts = .ok colIdx →
      ∀ e, search r q opts ≠ .error e := by
    intro colIdx hres e
    have hs := search_resolve_ok r q opts colIdx hres
    rw [hs]
    by_cases hc : opts.maxResults > 0 ∧
        ((List.range r.rowCount).filterMap
          (rowPred r q opts.caseInsensitive colIdx)).length > opts.maxResults
    · rw [if_pos hc]
      exact fun hcon => Except.noConfusion hcon
    · rw [if_neg hc]
      exact fun hcon => Except.noConfusion hcon
  refine ⟨⟨?_, ?_⟩, ?_, ?_⟩
  · rintro ⟨e, he⟩
    cases hcol : opts.column with
    | none =>
      exact absurd he (hok none (by unfold resolveColumn; rw [hcol]) e)
    | some name =>
      cases hidx : r.headers.findIdx? (fun h => decide (h = name)) with
      | some idx =>
        refine absurd he (hok (some idx) ?_ e)
        unfold resolveColumn
        rw [hcol]
        simp only []
        rw [hidx]
      | none => exact ⟨name, rfl, hidx⟩
  · rintro ⟨name, hcol, hidx⟩
    refine ⟨.columnNotFound name, ?_⟩
    unfold search resolveColumn
    rw [hcol]
    simp only []
    rw [hidx]
  · intro name hcol hidx
    unfold search resolveColumn
    rw [hcol]
    simp only []
    rw [hidx]
  · intro res hres i er her x hx hxi
    cases hcv : resolveColumn r opts with
    | error e =>
      unfold search at hres
      rw [hcv] at hres
      exact Except.noConfusion hres
    | ok colIdx =>
      have hs := search_resolve_ok r q opts colIdx hcv
      rw [hs] at hres
      set L := (List.range r.rowCount).filterMap
          (rowPred r q opts.caseInsensitive colIdx) with hL
      have hxL : x ∈ L := by
        by_cases hc : opts.maxResults > 0 ∧ L.length > opts.maxResults
        · rw [if_pos hc] at hres
          have hr : res = L.take opts.maxResults := (Except.ok.inj hres).symm
          subst hr
          exact List.mem_of_mem_take hx
        · rw [if_neg hc] at hres
          have hr : res = L := (Except.ok.inj hres).symm
          subst hr
          exact hx
      obtain ⟨j, hj, hpj⟩ := List.mem_filterMap.mp (hL ▸ hxL)
      have hji : j = i := by rw [← hxi, rowPred_rowNum r q _ colIdx j x hpj]
      subst hji
      obtain ⟨raw, hrawok⟩ := rowPred_raw_ok r q _ colIdx j x hpj
      rw [her] at hrawok
      exact Except.noConfusion hrawok

theorem c8_witness :
    search c2reader [97] ⟨some [122], false, 0⟩ =
      .error (.columnNotFound [122]) :=
  (c8_search_failure_policy c2reader [97] ⟨some [122], false, 0⟩).2.1
    [122] rfl (by rfl)


theorem lookupEdit_mem (l : List (Nat × List (List Nat))) (i : Nat)
    (v : List (List Nat)) (h : lookupEdit l i = some v) : (i, v) ∈ l := by
  induction l with
  | nil => exact Option.noConfusion h
  | cons p t ih =>
    obtain ⟨k, w⟩ := p
    unfold lookupEdit at h
    by_cases hk : k = i
    · rw [if_pos hk] at h
      exact List.mem_cons.mpr (Or.inl (by rw [hk, Option.some.inj h]))
    · rw [if_neg hk] at h
      exact List.mem_cons_of_mem _ (ih h)

theorem lookupEdit_none_of_bound (e : CsvEditor) (hb : keysBound e) (i : Nat)
    (hi : i ≥ e.reader.rowCount) : lookupEdit e.edits i = none := by
  cases hl : lookupEdit e.edits i with
  | none => rfl
  | some v =>
    have h2 : i < e.reader.rowCount := hb (i, v) (lookupEdit_mem _ _ _ hl)
    omega

theorem insertEdit_mem (l : List (Nat × List (List Nat))) (i : Nat)
    (v : List (List Nat)) (p : Nat × List (List Nat))
    (h : p ∈ insertEdit l i v) : p.1 = i ∨ p ∈ l := by
  unfold insertEdit at h
  by_cases hs : (lookupEdit l i).isSome
  · rw [if_pos hs] at h
    obtain ⟨q, hq, hqe⟩ := List.mem_map.mp h
    by_cases hq1 : q.1 = i
    · rw [if_pos hq1] at hqe
      left
      rw [← hqe]
    · rw [if_neg hq1] at hqe
      right
      rw [← hqe]
      exact hq
  · rw [if_neg hs] at h
    rcases List.mem_append.mp h with h1 | h1
    · exact Or.inr h1
    · left
      have hp : p = (i, v) := by simpa using h1
      rw [hp]

theorem editor_getRow_ok_lt (e : CsvEditor) (hb : keysBound e) (i : Nat)
    (fields : List (List Nat)) (hg : e.getRow i = .ok fields) :
    i < e.reader.rowCount := by
  by_contra hcon
  push_neg at hcon
  have hnone := lookupEdit_none_of_bound e hb i hcon
  unfold CsvEditor.getRow at hg
  rw [hnone] at hg
  unfold CsvReader.getRow CsvReader.getRowRaw at hg
  rw [if_pos (show i ≥ e.reader.rowCount from hcon)] at hg
  exact Except.noConfusion hg

theorem save_editor_cases (e : CsvEditor) (f : List Nat) (fio : SaveIo) :
    (e.save f fio).2.1 = e ∨ (e.save f fio).2.1.edits = [] := by
  unfold CsvEditor.save
  by_cases h1 : e.edits.isEmpty
  · rw [if_pos h1]
    exact Or.inl rfl
  · rw [if_neg h1]
    by_cases h2 : fio.tempOk = false
    · rw [if_pos h2]
      exact Or.inl rfl
    · rw [if_neg h2]
      cases hcl : computeLines e with
      | error er => exact Or.inl rfl
      | ok lines =>
        rw [saveCore_ok_eq]
        by_cases h3 : fio.writeOk = false
        · rw [if_pos h3]
          exact Or.inl rfl
        · rw [if_neg h3]
          by_cases h4 : fio.flushOk = false
          · rw [if_pos h4]
            exact Or.inl rfl
          · rw [if_neg h4]
            by_cases h5 : fio.renameOk = false
            · rw [if_pos h5]
              exact Or.inl rfl
            · rw [if_neg h5]
              by_cases h6 : fio.reopenOk = false
              · rw [if_pos h6]
                exact Or.inl rfl
              · rw [if_neg h6]
                unfold saveReopen
                cases CsvReader.open (newFileBytes e lines) with
                | error er => exact Or.inl rfl
                | ok r2 => exact Or.inr rfl

theorem keysBound_step (a b : CsvEditor × List Nat) (h : EStep a b)
    (hb : keysBound a.1) : keysBound b.1 := by
  cases h with
  | set_row e f i fields =>
    show keysBound (applyE e (e.setRow i fields))
    unfold CsvEditor.setRow applyE
    by_cases hi : i ≥ e.reader.rowCount
    · rw [if_pos hi]
      exact hb
    · rw [if_neg hi]
      intro p hp
      show p.1 < e.reader.rowCount
      rcases insertEdit_mem e.edits i fields p hp with h1 | h1
      · omega
      · exact hb p h1
  | set_cell e f i col v =>
    show keysBound (applyE e (e.setCell i col v))
    unfold CsvEditor.setCell applyE
    cases hg : e.getRow i with
    | error er => exact hb
    | ok fields =>
      simp only []
      by_cases hc : col ≥ fields.length
      · rw [if_pos hc]
        exact hb
      · rw [if_neg hc]
        intro p hp
        show p.1 < e.reader.rowCount
        have hilt : i < e.reader.rowCount := editor_getRow_ok_lt e hb i fields hg
        rcases insertEdit_mem e.edits i (fields.set col v) p hp with h1 | h1
        · omega
        · exact hb p h1
  | revert_row e f i =>
    intro p hp
    show p.1 < e.reader.rowCount
    exact hb p (List.mem_of_mem_filter hp)
  | revert_all e f =>
    intro p hp
    exact absurd hp (List.not_mem_nil p)
  | save_step e f fio =>
    show keysBound (e.save f fio).2.1
    rcases save_editor_cases e f fio with h1 | h1
    · rw [h1]
      exact hb
    · intro p hp
      rw [h1] at hp
      exact absurd hp (List.not_mem_nil p)

/-- C10: in every editor state reachable from a state whose pending edits all
target in-range rows, every pending-edit key stays below the current reader
row count; moreover `set_row` and `set_cell` reject an out-of-range row with
`RowOutOfRange` before inserting, the revert operations only remove entries,
and a successful `save` leaves the edit map empty. -/
theorem c10_editor_invariant (s t : CsvEditor × List Nat)
    (hreach : EReachable s t) (hs : keysBound s.1) :
    keysBound t.1 ∧
    (∀ i fields, i ≥ t.1.reader.rowCount →
      t.1.setRow i fields = .error (.rowOutOfRange i t.1.reader.rowCount)) ∧
    (∀ i col v, i ≥ t.1.reader.rowCount →
      t.1.setCell i col v = .error (.rowOutOfRange i t.1.reader.rowCount)) ∧
    (∀ i p, p ∈ (t.1.revertRow i).edits → p ∈ t.1.edits) ∧
    (∀ p, p ∈ t.1.revertAll.edits → False) ∧
    (∀ f fio u, (t.1.save f fio).1 = .ok u → (t.1.save f fio).2.1.edits = []) := by
  have hbt : keysBound t.1 := by
    induction hreach with
    | refl => exact hs
    | tail hab hstep ih => exact keysBound_step _ _ hstep ih
  refine ⟨hbt, ?_, ?_, ?_, ?_, ?_⟩
  · intro i fields hi
    unfold CsvEditor.setRow
    rw [if_pos hi]
  · intro i col v hi
    have hnone := lookupEdit_none_of_bound t.1 hbt i hi
    unfold CsvEditor.setCell CsvEditor.getRow
    rw [hnone]
    unfold CsvReader.getRow CsvReader.getRowRaw
    rw [if_pos hi]
    rfl
  · intro i p hp
    exact List.mem_of_mem_filter hp
  · intro p hp
    exact List.not_mem_nil p hp
  · intro f fio u hok
    by_cases h1 : t.1.edits.isEmpty
    · show (t.1.save f fio).2.1.edits = []
      unfold CsvEditor.save
      rw [if_pos h1]
      exact List.isEmpty_iff.mp h1
    · cases u
      obtain ⟨lines, r2, _, _, heq⟩ := save_ok_elim t.1 f fio h1 hok
      rw [heq]

theorem c10_witness :
    keysBound c1editor ∧
    (∀ i fields, i ≥ c1editor.reader.rowCount →
      c1editor.setRow i fields =
        .error (.rowOutOfRange i c1editor.reader.rowCount)) ∧
    (∀ i col v, i ≥ c1editor.reader.rowCount →
      c1editor.setCell i col v =
        .error (.rowOutOfRange i c1editor.reader.rowCount)) ∧
    (∀ i p, p ∈ (c1editor.revertRow i).edits → p ∈ c1editor.edits) ∧
    (∀ p, p ∈ c1editor.revertAll.edits → False) ∧
    (∀ f fio u, (c1editor.save f fio).1 = .ok u →
      (c1editor.save f fio).2.1.edits = []) :=
  c10_editor_invariant (c1editor, bytes ("h\na\n")) (c1editor, bytes ("h\na\n"))
    Relation.ReflTransGen.refl (by unfold keysBound; decide)
